import Mathlib

/-!
Verification of the Namada block-oriented storage engine specification.

The repository sources under verification contain the persistent-storage
front-end (`apps/src/lib/node/ledger/storage/mod.rs`: the blake2b-based
`PersistentStorageHasher` and the storage test-suite) and the MASP
conversion-state update (`core/src/ledger/storage/masp_conversions.rs`).
The storage core itself (`namada::ledger::storage::Storage`, the write log
and the Merkle tree manager) is exercised by those tests but its code is
not part of the source tree given here, so it is modelled from the
specification, as marked on each definition below.
-/

namespace Namada

/-- Modelled from the spec: a storage Key is a path-like identifier totally
ordered lexicographically by its serialized byte form; we use the serialized
byte string directly. -/
abbrev Key := List Nat

/-- Modelled from the spec: a Value is an arbitrary byte string. -/
abbrev Value := List Nat

/-- Lexicographic strict order on serialized keys. -/
def keyLt : List Nat → List Nat → Bool
  | [], [] => false
  | [], _ :: _ => true
  | _ :: _, [] => false
  | a :: as, b :: bs => if a < b then true else if b < a then false else keyLt as bs

/-- A key-value map represented as an association list; the storage engine
keeps it sorted by `keyLt` so that prefix iteration is ordered. -/
abbrev KVMap := List (Key × Value)

/-- Look up a key in the map. -/
def mapGet (k : Key) : KVMap → Option Value
  | [] => none
  | e :: rest => if e.1 = k then some e.2 else mapGet k rest

/-- Insert a binding, keeping the list sorted when it was sorted. -/
def mapInsert (k : Key) (v : Value) : KVMap → KVMap
  | [] => [(k, v)]
  | e :: rest =>
    if keyLt k e.1 then (k, v) :: e :: rest
    else if e.1 = k then (k, v) :: rest
    else e :: mapInsert k v rest

/-- Remove every binding of a key (a sorted map has at most one). -/
def mapRemove (k : Key) : KVMap → KVMap
  | [] => []
  | e :: rest => if e.1 = k then mapRemove k rest else e :: mapRemove k rest

/-- A key-sorted association list: keys strictly ascending in `keyLt`. -/
abbrev KVSorted (m : KVMap) : Prop :=
  List.Pairwise (fun a b => keyLt a.1 b.1 = true) m

/-- A diff record entry: `some v` is a write, `none` a delete tombstone. -/
abbrev Diff := List (Key × Option Value)

/-- Apply one block's diff record to a map, in entry order. -/
def applyDiff (d : Diff) (m : KVMap) : KVMap :=
  d.foldl (fun m e => match e.2 with
    | some v => mapInsert e.1 v m
    | none => mapRemove e.1 m) m

/-- A 64-bit mixing step used by the model root computation. -/
def mix (a b : Nat) : Nat := (a * 6364136223846793005 + b + 1442695040888963407) % (2 ^ 64)

/-- Digest of a byte string used by the model root computation. -/
def bytesHash (bs : List Nat) : Nat := bs.foldl mix 14695981039346656037

/-- Modelled from the spec: the Merkle root of a state is a deterministic
fold of the key and value digests in ascending key order; the map is kept
key-sorted, so folding it directly realises the required determinism. -/
def rootOf (m : KVMap) : Nat :=
  m.foldl (fun acc e => mix (mix acc (bytesHash e.1)) (bytesHash e.2)) 0

/-- Modelled from the spec: the persisted contents of the Byte Store --
committed key/value pairs, per-height diff records, per-epoch Merkle base
stores, block metadata and the pruning watermark. -/
structure DB where
  subspace : KVMap
  diffs : List (Nat × Diff)
  snapshots : List (Nat × KVMap)
  lastHeight : Option Nat
  lastHash : Nat
  lastEpoch : Nat
  predEpochs : List Nat
  oldestEpoch : Nat
  deriving Repr, DecidableEq

/-- The empty Byte Store contents of a freshly created database. -/
def DB.empty : DB :=
  { subspace := [], diffs := [], snapshots := [], lastHeight := none,
    lastHash := 0, lastEpoch := 0, predEpochs := [], oldestEpoch := 0 }

/-- Modelled from the spec: the Storage Core state -- the persistent store,
the pruning configuration, the in-memory state of the block being built
(height, hash, epoch, epoch start heights, accumulated diff) and the last
committed height. -/
structure Storage where
  db : DB
  retainEpochs : Option Nat
  subspace : KVMap
  blockHeight : Nat
  blockHash : Nat
  blockEpoch : Nat
  predEpochs : List Nat
  pending : Diff
  lastHeight : Nat
  deriving Repr, DecidableEq

/-- Modelled from the spec: `Storage::open` -- open a storage handle over a
(possibly pre-existing) database with a pruning configuration; the in-memory
block state starts fresh. -/
def Storage.openStore (db : DB) (retain : Option Nat) : Storage :=
  { db := db, retainEpochs := retain, subspace := [], blockHeight := 0,
    blockHash := 0, blockEpoch := 0, predEpochs := [], pending := [],
    lastHeight := 0 }

/-- Modelled from the spec: `write(key, value)` records the pending write,
makes it visible to subsequent reads and returns gas `len(key) + len(value)`. -/
def Storage.write (k : Key) (v : Value) (s : Storage) : Storage × Nat :=
  ({ s with subspace := mapInsert k v s.subspace,
            pending := s.pending ++ [(k, some v)] },
   k.length + v.length)

/-- Modelled from the spec: `delete(key)` records a pending tombstone and
returns gas `len(key)`. -/
def Storage.delete (k : Key) (s : Storage) : Storage × Nat :=
  ({ s with subspace := mapRemove k s.subspace,
            pending := s.pending ++ [(k, none)] },
   k.length)

/-- Modelled from the spec: `read(key)` returns the current visible value
with gas `len(key)` plus, if a value is found, `len(value)`. -/
def Storage.read (k : Key) (s : Storage) : Option Value × Nat :=
  match mapGet k s.subspace with
  | some v => (some v, k.length + v.length)
  | none => (none, k.length)

/-- Modelled from the spec: `has_key(key)` is an existence check with gas
`len(key)`. -/
def Storage.has_key (k : Key) (s : Storage) : Bool × Nat :=
  ((mapGet k s.subspace).isSome, k.length)

/-- Modelled from the spec: `begin_block(hash, height)` opens a block. -/
def Storage.begin_block (hash h : Nat) (s : Storage) : Storage :=
  { s with blockHash := hash, blockHeight := h }

/-- Modelled from the spec: `merkle_root()` returns the live root. -/
def Storage.merkle_root (s : Storage) : Nat := rootOf s.subspace

/-- Modelled from the spec: `get_state()` returns the current root and the
last committed height, or nothing before any block was committed. -/
def Storage.get_state (s : Storage) : Option (Nat × Nat) :=
  s.db.lastHeight.map (fun h => (s.merkle_root, h))

/-- Start height of an epoch, read off the epoch start heights: epoch 0
starts at height 0 and epoch `e + 1` starts at the `e`-th recorded boundary. -/
def epochStartHeight (preds : List Nat) (e : Nat) : Nat :=
  match e with
  | 0 => 0
  | e + 1 => preds.getD e 0

/-- Epoch of a height: the number of recorded epoch boundaries at or below it. -/
def epochOfHeight (preds : List Nat) (h : Nat) : Nat :=
  (preds.filter (fun b => b ≤ h)).length

/-- Modelled from the spec: `commit_block()` flushes the accumulated diff to
the Byte Store as the diff record of this height, persists block metadata,
stores a Merkle base store when this block started a new epoch, and prunes
diff records and base stores of epochs older than the retention window,
anchored to epoch boundaries. -/
def Storage.commit_block (s : Storage) : Storage :=
  let newEpoch := s.db.lastEpoch < s.blockEpoch
  let snaps :=
    if newEpoch then s.db.snapshots ++ [(s.blockEpoch, s.db.subspace)]
    else s.db.snapshots
  let diffs := s.db.diffs ++ [(s.blockHeight, s.pending)]
  let oldest :=
    match s.retainEpochs with
    | some r => if newEpoch then s.blockEpoch - r else s.db.oldestEpoch
    | none => s.db.oldestEpoch
  let startH := epochStartHeight s.predEpochs oldest
  { s with
    db := { subspace := s.subspace,
            diffs := diffs.filter (fun hd => startH ≤ hd.1),
            snapshots := snaps.filter (fun es => oldest ≤ es.1),
            lastHeight := some s.blockHeight,
            lastHash := s.blockHash,
            lastEpoch := s.blockEpoch,
            predEpochs := s.predEpochs,
            oldestEpoch := oldest },
    pending := [],
    lastHeight := s.blockHeight }

/-- Modelled from the spec: `load_last_state()` reads the most recently
committed height, hash, epoch data and state back from the Byte Store. -/
def Storage.load_last_state (s : Storage) : Storage :=
  { s with subspace := s.db.subspace,
           lastHeight := s.db.lastHeight.getD 0,
           blockEpoch := s.db.lastEpoch,
           blockHash := s.db.lastHash,
           predEpochs := s.db.predEpochs }

/-- Last tombstone-or-write entry for a key inside one diff record. -/
def diffGet (k : Key) (d : Diff) : Option (Option Value) :=
  d.foldl (fun acc e => if e.1 = k then some e.2 else acc) none

/-- Backward scan over per-height diff records: the most recent mutation of
the key at or below the given height. -/
def scanDiffs (k : Key) (h : Nat) : List (Nat × Diff) → Option (Option Value)
  | [] => none
  | hd :: tl =>
    match scanDiffs k h tl with
    | some r => some r
    | none => if hd.1 ≤ h then diffGet k hd.2 else none

/-- Modelled from the spec: `read_with_height(key, height)` reads the latest
committed state when the height is at or past the committed frontier, and
otherwise scans the per-height diff records backward for the last mutation
of the key at or before the height. -/
def Storage.read_with_height (k : Key) (h : Nat) (s : Storage) : Option Value × Nat :=
  if s.lastHeight ≤ h then
    match mapGet k s.db.subspace with
    | some v => (some v, k.length + v.length)
    | none => (none, k.length)
  else
    match scanDiffs k h s.db.diffs with
    | some (some v) => (some v, k.length + v.length)
    | _ => (none, k.length)

/-- Modelled from the spec: `iter_prefix(prefix)` yields the key-sorted
sequence of visible (not deleted, committed or still pending) pairs under
the prefix, each carrying gas `len(key) + len(value)`, with gas
`len(prefix)` charged up front. -/
def Storage.prefixIter (p : Key) (s : Storage) : List (Key × Value × Nat) × Nat :=
  ((s.subspace.filter (fun e => p.isPrefixOf e.1)).map
      (fun e => (e.1, e.2, e.1.length + e.2.length)), p.length)

/-- Historical-read failures of the storage engine. -/
inductive StorageErr where
  | prunedHeight
  | notYetCommitted
  deriving Repr, DecidableEq

/-- Modelled from the spec: `get_merkle_tree(height)` fails for heights past
the committed frontier or inside a pruned epoch, and otherwise reconstructs
the tree of the height by replaying the diff records of the applicable epoch
range, from the epoch's Merkle base store, in ascending height order. The
reconstructed tree is represented by its key/value state. -/
def Storage.get_merkle_tree (h : Nat) (s : Storage) : Except StorageErr KVMap :=
  if s.lastHeight < h then .error .notYetCommitted
  else
    let e := epochOfHeight s.predEpochs h
    if e < s.db.oldestEpoch then .error .prunedHeight
    else
      let base :=
        if e = 0 then []
        else match (s.db.snapshots.filter (fun es => es.1 = e)).head? with
          | some es => es.2
          | none => []
      let startH := epochStartHeight s.predEpochs e
      let ds := s.db.diffs.filter (fun hd => startH ≤ hd.1 ∧ hd.1 ≤ h)
      .ok (ds.foldl (fun m hd => applyDiff hd.2 m) base)

/-- Root of a reconstructed tree. -/
def treeRoot (t : KVMap) : Nat := rootOf t

/-- Key membership in a reconstructed tree. -/
def treeHasKey (k : Key) (t : KVMap) : Bool := (mapGet k t).isSome

/-- A mutation issued against an open block: a write or a delete. Batched
mutations staged through `batch_write_subspace_val` or
`batch_delete_subspace_val` and executed by `exec_batch` have the same
effect on the state, so scripts describe both forms. -/
inductive Op where
  | put : Key → Value → Op
  | del : Key → Op
  deriving Repr, DecidableEq

/-- Apply one mutation to the storage, discarding the gas. -/
def applyOp (s : Storage) (op : Op) : Storage :=
  match op with
  | .put k v => (Storage.write k v s).1
  | .del k => (Storage.delete k s).1

/-- Modelled from the spec: a batch of staged writes and deletes. -/
abbrev Batch := Diff

/-- Modelled from the spec: `batch_write_subspace_val` stages a write. -/
def batch_write_subspace_val (b : Batch) (k : Key) (v : Value) : Batch :=
  b ++ [(k, some v)]

/-- Modelled from the spec: `batch_delete_subspace_val` stages a delete. -/
def batch_delete_subspace_val (b : Batch) (k : Key) : Batch :=
  b ++ [(k, none)]

/-- Modelled from the spec: `exec_batch` applies the staged mutations. -/
def Storage.exec_batch (b : Batch) (s : Storage) : Storage :=
  b.foldl (fun s e =>
    match e.2 with
    | some v => (Storage.write e.1 v s).1
    | none => (Storage.delete e.1 s).1) s

/-- One block of a commit script: the height it is committed at, whether the
caller starts a new epoch at this height, and the mutations of the block. -/
structure CBlock where
  height : Nat
  newEpoch : Bool
  ops : List Op
  deriving Repr, DecidableEq

/-- Run one block: begin it, advance the epoch bookkeeping when the caller
starts a new epoch, apply its mutations and commit. -/
def commitAt (b : CBlock) (s : Storage) : Storage :=
  Storage.commit_block
    (b.ops.foldl applyOp
      (if b.newEpoch then
        { Storage.begin_block 0 b.height s with
          blockEpoch := s.blockEpoch + 1,
          predEpochs := s.predEpochs ++ [b.height] }
      else Storage.begin_block 0 b.height s))

/-- Run a whole commit script against a freshly opened storage. -/
def runScript (retain : Option Nat) (script : List CBlock) : Storage :=
  script.foldl (fun s b => commitAt b s) (Storage.openStore DB.empty retain)

/-- The diff-record entry of one mutation. -/
def opMut : Op → Key × Option Value
  | .put k v => (k, some v)
  | .del k => (k, none)

/-- The diff record a block's mutations flush at commit. -/
def diffOfOps (ops : List Op) : Diff := ops.map opMut

/-- The per-height diff records a script commits, in commit order. -/
def diffRecords (script : List CBlock) : List (Nat × Diff) :=
  script.map (fun b => (b.height, diffOfOps b.ops))

/-- Heights at which a script starts new epochs, in commit order. -/
def flagHeights (script : List CBlock) : List Nat :=
  (script.filter (fun b => b.newEpoch)).map (fun b => b.height)

/-- The last committed height of a script (0 for the empty script). -/
def lastHeightOf (script : List CBlock) : Nat :=
  (script.map (fun b => b.height)).getLastD 0

/-- The oldest epoch retained after running a script with the given
retention configuration. -/
def oldestOf (retain : Option Nat) (script : List CBlock) : Nat :=
  match retain with
  | none => 0
  | some r => (flagHeights script).length - r

/-- Reference state at a height: replay of every diff record committed at or
below it, in commit order, from the empty state. -/
def stateAt (script : List CBlock) (h : Nat) : KVMap :=
  ((diffRecords script).filter (fun hd => hd.1 ≤ h)).foldl
    (fun m hd => applyDiff hd.2 m) []

/-- Reference state strictly below a height. -/
def stateBelow (script : List CBlock) (hh : Nat) : KVMap :=
  ((diffRecords script).filter (fun hd => hd.1 < hh)).foldl
    (fun m hd => applyDiff hd.2 m) []

/-- Reference state after the whole script. -/
def stateAll (script : List CBlock) : KVMap :=
  (diffRecords script).foldl (fun m hd => applyDiff hd.2 m) []

/-- Well-formed script: committed heights are strictly increasing. -/
abbrev WFScript (script : List CBlock) : Prop :=
  List.Pairwise (· < ·) (script.map (fun b => b.height))

/-- The last mutation a script applies to a key at or below a height:
`some (some v)` for a write of `v`, `some none` for a delete, `none` when
the key was never mutated by then. -/
def lastMutation (script : List CBlock) (h : Nat) (k : Key) : Option (Option Value) :=
  (script.filter (fun b => b.height ≤ h)).foldl
    (fun acc b =>
      match diffGet k (diffOfOps b.ops) with
      | some m => some m
      | none => acc) none

/-- The value of a key as of a height, as the spec describes it: the value
last written at or before the height, and nothing when the key was never
written or its last mutation was a delete. -/
def valueAsOf (script : List CBlock) (h : Nat) (k : Key) : Option Value :=
  match lastMutation script h k with
  | some (some v) => some v
  | _ => none

/-- The Merkle base store entry of an epoch: the reference state just below
the epoch's start height. -/
def snapEntry (script : List CBlock) (e : Nat) : Nat × KVMap :=
  (e, stateBelow script (epochStartHeight (flagHeights script) e))

/-- The relation between a run of a commit script and the reference
description of every storage component: current and committed state, block
metadata, retained diff records and retained per-epoch base stores. -/
structure Inv (retain : Option Nat) (script : List CBlock) (s : Storage) : Prop where
  rsub : s.subspace = stateAll script
  rdbsub : s.db.subspace = stateAll script
  rpending : s.pending = []
  rretain : s.retainEpochs = retain
  rlastH : s.lastHeight = lastHeightOf script
  rdblastH : s.db.lastHeight = (script.map (fun b => b.height)).getLast?
  repoch : s.blockEpoch = (flagHeights script).length
  rdbepoch : s.db.lastEpoch = (flagHeights script).length
  rpreds : s.predEpochs = flagHeights script
  rdbpreds : s.db.predEpochs = flagHeights script
  roldest : s.db.oldestEpoch = oldestOf retain script
  rdiffs : s.db.diffs = (diffRecords script).filter
      (fun hd => epochStartHeight (flagHeights script) (oldestOf retain script) ≤ hd.1)
  rsnaps : s.db.snapshots = ((List.range' 1 (flagHeights script).length).filter
      (fun e => oldestOf retain script ≤ e)).map (snapEntry script)

/-- The value `I256::from(i64::MAX)` used by `calculate_masp_rewards`. -/
def i64MaxI : Int := 9223372036854775807

/-- The inflation-discretisation tail of `calculate_masp_rewards`
(`masp_conversions.rs`): with the values read from storage and the
controller output abstracted into parameters, the code computes the
noterized inflation as `I256::from(100 * inflation) / total_in` (zero for
an empty shielded pool), takes `I256::max` of it and `I256::from(i64::MAX)`
and returns that next to `I256::from(100 * denomination_offset)`. The `u64`
products wrap modulo `2 ^ 64` as in the source type. -/
def calculate_masp_rewards_core (inflation : Nat) (total_in : Int)
    (denomination_offset : Nat) : Int × Int :=
  let noterized_inflation : Int :=
    if total_in = 0 then 0
    else Int.tdiv (Int.ofNat ((100 * inflation) % 2 ^ 64)) total_in
  let clamped_inflation := max noterized_inflation i64MaxI
  (clamped_inflation, Int.ofNat ((100 * denomination_offset) % 2 ^ 64))

/-- Modelled from the spec: the root of the empty conversion sub-tree of a
given depth, built by combining two copies of the next-lower empty root;
the node-combining hash of `masp_primitives` (not in src/) is abstracted as
the level-indexed parameter `c`, the empty leaf as `e0`. -/
def emptyRootAt (c : Nat → Nat → Nat → Nat) (e0 : Nat) : Nat → Nat
  | 0 => e0
  | d + 1 => c d (emptyRootAt c e0 d) (emptyRootAt c e0 d)

/-- Modelled from the spec: one level of commitment-tree construction --
adjacent nodes are combined pairwise, an unpaired last node is combined
with the empty root of its level. -/
def hashRow (c : Nat → Nat → Nat → Nat) (e0 : Nat) (d : Nat) : List Nat → List Nat
  | [] => []
  | [a] => [c d a (emptyRootAt c e0 d)]
  | a :: b :: rest => c d a b :: hashRow c e0 d rest

/-- Iterate `hashRow` for a number of levels starting at level `d`. -/
def levelFold (c : Nat → Nat → Nat → Nat) (e0 : Nat) (d depth : Nat)
    (ns : List Nat) : List Nat :=
  match depth with
  | 0 => ns
  | depth + 1 => levelFold c e0 (d + 1) depth (hashRow c e0 d ns)

/-- Modelled from the spec: the root of a commitment (sub-)tree whose
leaves sit at level `d` and whose root is `depth` levels above them, as
`FrozenCommitmentTree::new` derives it; an empty leaf list gives the empty
root of the top level. -/
def buildRoot (c : Nat → Nat → Nat → Nat) (e0 : Nat) (d depth : Nat)
    (ns : List Nat) : Nat :=
  (levelFold c e0 d depth ns).headD (emptyRootAt c e0 (d + depth))

/-- Contiguous chunks of `csub + 1` leaves, as `par_chunks` partitions the
conversion notes (every chunk full except possibly the last). -/
def chunksOf (csub : Nat) : List Nat → List (List Nat)
  | [] => []
  | x :: xs => (x :: xs).take (csub + 1) :: chunksOf csub ((x :: xs).drop (csub + 1))
termination_by l => l.length
decreasing_by
  simp only [List.length_drop, List.length_cons]
  omega

/-- Concatenation of a list of rows, used to state the chunk lemma. -/
def concatAll : List (List Nat) → List Nat
  | [] => []
  | l :: ls => l ++ concatAll ls

/-- The chunk-size rounding loop of `update_allowed_conversions`
(`while notes_per_thread_max > rounded * 4 do rounded *= 2`), with the
power of two `rounded` tracked by its exponent; the fuel bounds the loop. -/
def roundK : Nat → Nat → Nat → Nat
  | 0, _, k => k
  | fuel + 1, maxN, k => if 2 ^ k * 4 < maxN then roundK fuel maxN (k + 1) else k

/-- The sequential conversion-tree root: one tree over the whole leaf list. -/
def seqRootD (c : Nat → Nat → Nat → Nat) (e0 : Nat) (D : Nat) (ns : List Nat) : Nat :=
  buildRoot c e0 0 D ns

/-- Modelled from the spec: the chunked conversion-tree root of
`update_allowed_conversions` -- the leaf list is cut into power-of-two
chunks sized by the rounding loop (`t` is the thread count), one sub-tree
is built per chunk, and `FrozenCommitmentTree::merge` combines the
sub-tree roots into the final root. -/
def parRootD (c : Nat → Nat → Nat → Nat) (e0 : Nat) (D t : Nat)
    (ns : List Nat) : Nat :=
  let maxN := (ns.length - 1) / t + 1
  let k := roundK maxN maxN 0
  buildRoot c e0 k (D - k) ((chunksOf (2 ^ k - 1) ns).map (buildRoot c e0 0 k))

/-- The 64-bit word modulus of the Blake2b state. -/
def M64 : Nat := 2 ^ 64

/-- 64-bit wrapping addition. -/
def add64 (a b : Nat) : Nat := (a + b) % M64

/-- 64-bit right rotation. -/
def rotr64 (x n : Nat) : Nat := (x >>> n) ||| ((x <<< (64 - n)) % M64)

/-- The Blake2b initialization vector (RFC 7693), as implemented by the
`blake2b_rs` crate backing `new_blake2b`. -/
def IVB : List Nat :=
  [0x6a09e667f3bcc908, 0xbb67ae8584caa73b, 0x3c6ef372fe94f82b, 0xa54ff53a5f1d36f1,
   0x510e527fade682d1, 0x9b05688c2b3e6c1f, 0x1f83d9abfb41bd6b, 0x5be0cd19137e2179]

/-- The Blake2b message schedule permutations (RFC 7693). -/
def SIGMA : List (List Nat) :=
  [[0, 1, 2, 3, 4, 5, 6, 7, 8, 9, 10, 11, 12, 13, 14, 15],
   [14, 10, 4, 8, 9, 15, 13, 6, 1, 12, 0, 2, 11, 7, 5, 3],
   [11, 8, 12, 0, 5, 2, 15, 13, 10, 14, 3, 6, 7, 1, 9, 4],
   [7, 9, 3, 1, 13, 12, 11, 14, 2, 6, 5, 10, 4, 0, 15, 8],
   [9, 0, 5, 7, 2, 4, 10, 15, 14, 1, 11, 12, 6, 8, 3, 13],
   [2, 12, 6, 10, 0, 11, 8, 3, 4, 13, 7, 5, 15, 14, 1, 9],
   [12, 5, 1, 15, 14, 13, 4, 10, 0, 7, 6, 3, 9, 2, 8, 11],
   [13, 11, 7, 14, 12, 1, 3, 9, 5, 0, 15, 4, 8, 6, 2, 10],
   [6, 15, 14, 9, 11, 3, 0, 8, 12, 2, 13, 7, 1, 4, 10, 5],
   [10, 2, 8, 4, 7, 6, 1, 5, 15, 11, 9, 14, 3, 12, 13, 0]]

/-- The Blake2b G mixing function on the 16-word working vector. -/
def gmix (v : List Nat) (a b c d x y : Nat) : List Nat :=
  let va := add64 (add64 (v.getD a 0) (v.getD b 0)) x
  let vd := rotr64 (Nat.xor (v.getD d 0) va) 32
  let vc := add64 (v.getD c 0) vd
  let vb := rotr64 (Nat.xor (v.getD b 0) vc) 24
  let va := add64 (add64 va vb) y
  let vd := rotr64 (Nat.xor vd va) 16
  let vc := add64 vc vd
  let vb := rotr64 (Nat.xor vb vc) 63
  (((v.set a va).set b vb).set c vc).set d vd

/-- One Blake2b round: eight G applications under a schedule row. -/
def blakeRound (m s v : List Nat) : List Nat :=
  let v := gmix v 0 4 8 12 (m.getD (s.getD 0 0) 0) (m.getD (s.getD 1 0) 0)
  let v := gmix v 1 5 9 13 (m.getD (s.getD 2 0) 0) (m.getD (s.getD 3 0) 0)
  let v := gmix v 2 6 10 14 (m.getD (s.getD 4 0) 0) (m.getD (s.getD 5 0) 0)
  let v := gmix v 3 7 11 15 (m.getD (s.getD 6 0) 0) (m.getD (s.getD 7 0) 0)
  let v := gmix v 0 5 10 15 (m.getD (s.getD 8 0) 0) (m.getD (s.getD 9 0) 0)
  let v := gmix v 1 6 11 12 (m.getD (s.getD 10 0) 0) (m.getD (s.getD 11 0) 0)
  let v := gmix v 2 7 8 13 (m.getD (s.getD 12 0) 0) (m.getD (s.getD 13 0) 0)
  gmix v 3 4 9 14 (m.getD (s.getD 14 0) 0) (m.getD (s.getD 15 0) 0)

/-- Little-endian 64-bit word at word index `i` of a byte string (absent
bytes read as the zero padding of the final block). -/
def leWordAt (bs : List Nat) (i : Nat) : Nat :=
  (List.range 8).foldl (fun acc j => acc + bs.getD (8 * i + j) 0 % 256 * 2 ^ (8 * j)) 0

/-- The sixteen message words of one 128-byte block. -/
def wordsOfBlock (bs : List Nat) : List Nat := (List.range 16).map (leWordAt bs)

/-- The Blake2b compression function F (RFC 7693): twelve rounds over the
state and block, with the byte counter and the final-block flag folded in. -/
def compress (h : List Nat) (block : List Nat) (t : Nat) (last : Bool) : List Nat :=
  let m := wordsOfBlock block
  let v := h ++ IVB
  let v := v.set 12 (Nat.xor (v.getD 12 0) (t % M64))
  let v := v.set 13 (Nat.xor (v.getD 13 0) (t / M64 % M64))
  let v := if last then v.set 14 (Nat.xor (v.getD 14 0) (M64 - 1)) else v
  let v := (List.range 12).foldl (fun vv r => blakeRound m (SIGMA.getD (r % 10) []) vv) v
  (List.range 8).map (fun i => Nat.xor (Nat.xor (h.getD i 0) (v.getD i 0)) (v.getD (i + 8) 0))

/-- Compress a sequence of 128-byte blocks; every block but the last uses
the running byte counter, the last uses the total length and the final
flag. -/
def compressBlocks (total : Nat) : List (List Nat) → List Nat → Nat → List Nat
  | [], h, _ => h
  | [b], h, _ => compress h b total true
  | b :: b2 :: rest, h, consumed =>
    compressBlocks total (b2 :: rest) (compress h b (consumed + 128) false) (consumed + 128)

/-- The Blake2b parameter block: digest length, no key, fanout and depth
one, and the personalization in bytes 48..63, zero-padded to 16 bytes as
`Blake2bBuilder::personal` stores it. -/
def paramBytes (outlen : Nat) (personal : List Nat) : List Nat :=
  [outlen % 256, 0, 1, 1] ++ List.replicate 44 0
    ++ (personal ++ List.replicate (16 - personal.length) 0).take 16

/-- The initial Blake2b state: the IV xored with the parameter block. -/
def hInit (outlen : Nat) (personal : List Nat) : List Nat :=
  (List.range 8).map (fun i => Nat.xor (IVB.getD i 0) (leWordAt (paramBytes outlen personal) i))

/-- The first `n` bytes of the state words, little-endian. -/
def bytesOfWords (ws : List Nat) (n : Nat) : List Nat :=
  (List.range n).map (fun i => (ws.getD (i / 8) 0 >>> (8 * (i % 8))) % 256)

/-- Split a byte string into 128-byte blocks, the last one short when the
length is not a multiple of 128; the fuel (any bound on the length) makes
the recursion structural. -/
def splitBlocks : Nat → List Nat → List (List Nat)
  | 0, _ => []
  | _, [] => []
  | fuel + 1, x :: xs => (x :: xs).take 128 :: splitBlocks fuel ((x :: xs).drop 128)

/-- A Blake2b hasher: state words, buffered input and digest length. -/
structure Blake2b where
  h : List Nat
  buf : List Nat
  outlen : Nat

/-- The bytes of the personalization string used by the storage hasher. -/
def namadaStoragePersonal : List Nat :=
  [110, 97, 109, 97, 100, 97, 32, 115, 116, 111, 114, 97, 103, 101]

/-- The hasher built by `new_blake2b` in `storage/mod.rs`:
`Blake2bBuilder::new(32).personal(b"namada storage").build()`. -/
def new_blake2b : Blake2b :=
  { h := hInit 32 namadaStoragePersonal, buf := [], outlen := 32 }

/-- Feed bytes into the hasher. -/
def Blake2b.update (st : Blake2b) (data : List Nat) : Blake2b :=
  { st with buf := st.buf ++ data }

/-- Produce the digest: compress the buffered input in 128-byte blocks (an
empty input is one zero block) and serialize the requested length. -/
def Blake2b.finalize (st : Blake2b) : List Nat :=
  let blocks := if st.buf.isEmpty then [[]] else splitBlocks st.buf.length st.buf
  bytesOfWords (compressBlocks st.buf.length blocks st.h 0) st.outlen

/-- `PersistentStorageHasher::hash` from `storage/mod.rs`: build the
personalized hasher, feed the value and finalize into a 32-byte buffer. -/
def PersistentStorageHasher.hash (value : List Nat) : List Nat :=
  (new_blake2b.update value).finalize

/-- The one-shot Blake2b digest of the given length and personalization,
the reference the claim compares the storage hasher against. -/
def blake2bDigest (outlen : Nat) (personal : List Nat) (data : List Nat) : List Nat :=
  let blocks := if data.isEmpty then [[]] else splitBlocks data.length data
  bytesOfWords (compressBlocks data.length blocks (hInit outlen personal) 0) outlen

theorem mapGet_insert_self (k : Key) (v : Value) (m : KVMap) :
    mapGet k (mapInsert k v m) = some v := by
  induction m with
  | nil => simp [mapInsert, mapGet]
  | cons e rest ih =>
    simp only [mapInsert]
    split_ifs with h1 h2
    · simp [mapGet]
    · simp [mapGet]
    · simpa [mapGet, h2] using ih

theorem mapGet_insert_ne (k k' : Key) (v : Value) (m : KVMap) (hne : k ≠ k') :
    mapGet k' (mapInsert k v m) = mapGet k' m := by
  induction m with
  | nil => simp [mapInsert, mapGet, hne]
  | cons e rest ih =>
    simp only [mapInsert]
    split_ifs with h1 h2
    · simp [mapGet, hne]
    · simp [mapGet, hne, h2]
    · simp only [mapGet]
      split_ifs with h3
      · rfl
      · exact ih

theorem mapGet_remove_self (k : Key) (m : KVMap) :
    mapGet k (mapRemove k m) = none := by
  induction m with
  | nil => simp [mapRemove, mapGet]
  | cons e rest ih =>
    simp only [mapRemove]
    split_ifs with h1
    · exact ih
    · simpa [mapGet, h1] using ih

theorem mapGet_remove_ne (k k' : Key) (m : KVMap) (hne : k ≠ k') :
    mapGet k' (mapRemove k m) = mapGet k' m := by
  induction m with
  | nil => simp [mapRemove, mapGet]
  | cons e rest ih =>
    simp only [mapRemove]
    split_ifs with h1
    · have : e.1 ≠ k' := by simpa [h1] using hne
      simp [mapGet, this, ih]
    · simp only [mapGet]
      split_ifs with h3
      · rfl
      · exact ih

theorem keyLt_irrefl (a : List Nat) : keyLt a a = false := by
  induction a with
  | nil => rfl
  | cons x xs ih => simp [keyLt, ih]

theorem keyLt_trans (a b c : List Nat) (h1 : keyLt a b = true)
    (h2 : keyLt b c = true) : keyLt a c = true := by
  induction a generalizing b c with
  | nil =>
    cases b with
    | nil => simp [keyLt] at h1
    | cons y ys =>
      cases c with
      | nil => simp [keyLt] at h2
      | cons z zs => simp [keyLt]
  | cons x xs ih =>
    cases b with
    | nil => simp [keyLt] at h1
    | cons y ys =>
      cases c with
      | nil => simp [keyLt] at h2
      | cons z zs =>
        simp only [keyLt] at h1 h2 ⊢
        by_cases hxy : x < y
        · by_cases hyz : y < z
          · simp [lt_trans hxy hyz]
          · by_cases hzy : z < y
            · simp [hyz, hzy] at h2
            · have hyz' : y = z := le_antisymm (not_lt.mp hzy) (not_lt.mp hyz)
              subst hyz'
              simp [hxy]
        · by_cases hyx : y < x
          · simp [hxy, hyx] at h1
          · have hxy' : x = y := le_antisymm (not_lt.mp hyx) (not_lt.mp hxy)
            subst hxy'
            rw [if_neg (lt_irrefl x)] at h1
            rw [if_neg (lt_irrefl x)] at h1
            by_cases hxz : x < z
            · simp [hxz]
            · by_cases hzx : z < x
              · simp [hxz, hzx] at h2
              · rw [if_neg hxz, if_neg hzx]
                rw [if_neg hxz, if_neg hzx] at h2
                exact ih ys zs h1 h2

theorem keyLt_total (a b : List Nat) (h1 : keyLt a b = false)
    (h2 : keyLt b a = false) : a = b := by
  induction a generalizing b with
  | nil =>
    cases b with
    | nil => rfl
    | cons y ys => simp [keyLt] at h1
  | cons x xs ih =>
    cases b with
    | nil => simp [keyLt] at h2
    | cons y ys =>
      simp only [keyLt] at h1 h2
      by_cases hxy : x < y
      · simp [hxy] at h1
      · by_cases hyx : y < x
        · simp [hyx, hxy] at h2
        · have hxy' : x = y := le_antisymm (not_lt.mp hyx) (not_lt.mp hxy)
          subst hxy'
          simp only [lt_irrefl, if_false] at h1 h2
          rw [ih ys h1 h2]

theorem keyLt_ne (a b : List Nat) (h : keyLt a b = true) : a ≠ b := by
  intro he
  subst he
  simp [keyLt_irrefl] at h

theorem mapGet_eq_none_of_lt (k : Key) (m : KVMap)
    (hall : ∀ e ∈ m, keyLt k e.1 = true) : mapGet k m = none := by
  induction m with
  | nil => rfl
  | cons e rest ih =>
    have hk : e.1 ≠ k := by
      intro he
      exact keyLt_ne k e.1 (hall e (by simp)) he.symm
    simp only [mapGet, if_neg hk]
    exact ih (fun f hf => hall f (by simp [hf]))

theorem mem_of_mapGet (k : Key) (v : Value) (m : KVMap)
    (h : mapGet k m = some v) : (k, v) ∈ m := by
  induction m with
  | nil => simp [mapGet] at h
  | cons e rest ih =>
    simp only [mapGet] at h
    split_ifs at h with h1
    · obtain rfl : e.2 = v := by simpa using h
      simp [← h1]
    · simp [ih h]

theorem mapGet_of_mem (k : Key) (v : Value) (m : KVMap) (hs : KVSorted m)
    (h : (k, v) ∈ m) : mapGet k m = some v := by
  induction m with
  | nil => simp at h
  | cons e rest ih =>
    rcases List.mem_cons.mp h with he | hr
    · subst he
      simp [mapGet]
    · have hlt : keyLt e.1 k = true := by
        have := (List.pairwise_cons.mp hs).1 (k, v) hr
        exact this
      have hne : e.1 ≠ k := keyLt_ne e.1 k hlt
      simp only [mapGet, if_neg hne]
      exact ih (List.pairwise_cons.mp hs).2 hr

theorem sorted_map_ext (m1 m2 : KVMap) (hs1 : KVSorted m1) (hs2 : KVSorted m2)
    (h : ∀ k, mapGet k m1 = mapGet k m2) : m1 = m2 := by
  induction m1 generalizing m2 with
  | nil =>
    cases m2 with
    | nil => rfl
    | cons f r2 =>
      have := h f.1
      simp [mapGet] at this
  | cons e r ih =>
    cases m2 with
    | nil =>
      have := h e.1
      simp [mapGet] at this
    | cons f r2 =>
      have hkey : e.1 = f.1 := by
        by_contra hne
        have h1 : mapGet f.1 (e :: r) = some f.2 := by
          rw [h f.1]; simp [mapGet]
        have h2 : mapGet e.1 (f :: r2) = some e.2 := by
          rw [← h e.1]; simp [mapGet]
        simp only [mapGet, if_neg hne] at h1
        have hne' : f.1 ≠ e.1 := fun x => hne x.symm
        simp only [mapGet, if_neg hne'] at h2
        have hm1 := mem_of_mapGet _ _ _ h1
        have hm2 := mem_of_mapGet _ _ _ h2
        have l1 : keyLt e.1 f.1 = true :=
          (List.pairwise_cons.mp hs1).1 (f.1, f.2) hm1
        have l2 : keyLt f.1 e.1 = true :=
          (List.pairwise_cons.mp hs2).1 (e.1, e.2) hm2
        exact keyLt_ne e.1 e.1 (keyLt_trans _ _ _ l1 l2) rfl
      have hval : e.2 = f.2 := by
        have := h e.1
        simp only [mapGet, if_pos rfl] at this
        have hne' : f.1 = e.1 := hkey.symm
        simp only [mapGet, if_pos hne'] at this
        simpa using this
      have hhead : e = f := Prod.ext hkey hval
      subst hhead
      have htail : ∀ k, mapGet k r = mapGet k r2 := by
        intro k
        by_cases hk : e.1 = k
        · subst hk
          have n1 : mapGet e.1 r = none :=
            mapGet_eq_none_of_lt _ _ (List.pairwise_cons.mp hs1).1
          have n2 : mapGet e.1 r2 = none :=
            mapGet_eq_none_of_lt _ _ (List.pairwise_cons.mp hs2).1
          rw [n1, n2]
        · have := h k
          simp only [mapGet, if_neg hk] at this
          exact this
      exact congrArg (e :: ·)
        (ih r2 (List.pairwise_cons.mp hs1).2 (List.pairwise_cons.mp hs2).2 htail)

theorem foldl_applyOp (ops : List Op) (s : Storage) :
    ops.foldl applyOp s =
      { s with subspace := applyDiff (diffOfOps ops) s.subspace,
               pending := s.pending ++ diffOfOps ops } := by
  induction ops generalizing s with
  | nil => simp [diffOfOps, applyDiff]
  | cons op rest ih =>
    cases op with
    | put k v =>
      rw [List.foldl_cons, ih]
      simp [applyOp, Storage.write, diffOfOps, applyDiff, opMut]
    | del k =>
      rw [List.foldl_cons, ih]
      simp [applyOp, Storage.delete, diffOfOps, applyDiff, opMut]

theorem diffGet_append (k : Key) (d : Diff) (e : Key × Option Value) :
    diffGet k (d ++ [e]) = if e.1 = k then some e.2 else diffGet k d := by
  simp [diffGet, List.foldl_append]

theorem applyDiff_append (d : Diff) (e : Key × Option Value) (m : KVMap) :
    applyDiff (d ++ [e]) m =
      match e.2 with
      | some v => mapInsert e.1 v (applyDiff d m)
      | none => mapRemove e.1 (applyDiff d m) := by
  simp [applyDiff, List.foldl_append]

theorem mapGet_applyDiff (k : Key) (d : Diff) (m : KVMap) :
    mapGet k (applyDiff d m) =
      match diffGet k d with
      | some (some v) => some v
      | some none => none
      | none => mapGet k m := by
  induction d using List.reverseRecOn with
  | nil => simp [applyDiff, diffGet]
  | append_singleton d e ih =>
    rw [applyDiff_append, diffGet_append]
    by_cases he : e.1 = k
    · subst he
      cases e.2 with
      | some v => simp [mapGet_insert_self]
      | none => simp [mapGet_remove_self]
    · cases e.2 with
      | some v =>
        simp only [if_neg he]
        rw [mapGet_insert_ne e.1 k v _ he, ih]
      | none =>
        simp only [if_neg he]
        rw [mapGet_remove_ne e.1 k _ he, ih]

/-- C1: after `write(K, V)` and `commit_block()` at height H, reopening the
storage fresh and calling `load_last_state()` yields a state whose
`get_state()` returns the pre-reopen Merkle root together with H, and whose
`read(K)` returns `Some(V)`. -/
theorem C1_commit_reopen_roundtrip (s : Storage) (k : Key) (v : Value) :
    Storage.get_state
        (Storage.load_last_state
          (Storage.openStore (Storage.commit_block (Storage.write k v s).1).db
            s.retainEpochs))
      = some (Storage.merkle_root (Storage.commit_block (Storage.write k v s).1),
              s.blockHeight)
    ∧ (Storage.read k
        (Storage.load_last_state
          (Storage.openStore (Storage.commit_block (Storage.write k v s).1).db
            s.retainEpochs))).1
      = some v := by
  constructor
  · rfl
  · simp [Storage.read, Storage.load_last_state, Storage.openStore,
      Storage.commit_block, Storage.write, mapGet_insert_self]

/-- C5: for heights at or past the last committed height, `read_with_height`
behaves exactly as `read` against the latest committed state and returns no
error. -/
theorem C5_read_with_height_frontier (s : Storage) (k : Key) (h : Nat)
    (hfr : s.lastHeight ≤ h) :
    Storage.read_with_height k h s = Storage.read k (Storage.load_last_state s)
    ∧ (s.subspace = s.db.subspace →
        Storage.read_with_height k h s = Storage.read k s) := by
  constructor
  · simp [Storage.read_with_height, hfr, Storage.read, Storage.load_last_state]
  · intro hsub
    simp [Storage.read_with_height, hfr, Storage.read, hsub]

/-- C5 witness: frontier reads at a concrete committed storage. -/
theorem C5_read_with_height_frontier_witness :
    Storage.read_with_height [1] 7
        (Storage.commit_block (Storage.write [1] [2] (Storage.openStore DB.empty none)).1)
      = Storage.read [1]
          (Storage.load_last_state
            (Storage.commit_block (Storage.write [1] [2] (Storage.openStore DB.empty none)).1)) :=
  (C5_read_with_height_frontier
    (Storage.commit_block (Storage.write [1] [2] (Storage.openStore DB.empty none)).1)
    [1] 7 (by decide)).1

/-- C7: `read` charges gas `len(key)` plus the length of the value when one
is found, and `has_key` charges gas `len(key)` whether or not the key exists. -/
theorem C7_read_has_key_gas (s : Storage) (k : Key) :
    (Storage.read k s).2 = k.length + ((Storage.read k s).1.elim 0 List.length)
    ∧ (Storage.has_key k s).2 = k.length := by
  constructor
  · simp only [Storage.read]
    cases mapGet k s.subspace <;> simp
  · rfl

/-- C6: iteration over a prefix yields exactly the non-deleted pairs under
the prefix in ascending lexicographic key order, independent of the order
the keys were written in; the up-front gas is the prefix length and each
entry carries gas `len(key) + len(value)`. -/
theorem C6_prefix_iteration (s : Storage) (p : Key) (hs : KVSorted s.subspace) :
    (Storage.prefixIter p s).2 = p.length
    ∧ (∀ e ∈ (Storage.prefixIter p s).1, e.2.2 = e.1.length + e.2.1.length)
    ∧ List.Pairwise (fun a b => keyLt a b = true)
        ((Storage.prefixIter p s).1.map (fun e => e.1))
    ∧ (∀ k v, (k, v, k.length + v.length) ∈ (Storage.prefixIter p s).1
        ↔ (p.isPrefixOf k = true ∧ mapGet k s.subspace = some v))
    ∧ (∀ m2, KVSorted m2 → (∀ k, mapGet k s.subspace = mapGet k m2) →
        Storage.prefixIter p s = Storage.prefixIter p { s with subspace := m2 }) := by
  refine ⟨rfl, ?_, ?_, ?_, ?_⟩
  · rintro ⟨k, v, g⟩ hm
    simp only [Storage.prefixIter, List.mem_map, List.mem_filter] at hm
    obtain ⟨a, _, ha⟩ := hm
    obtain ⟨rfl, rfl, rfl⟩ : a.1 = k ∧ a.2 = v ∧ a.1.length + a.2.length = g := by
      refine ⟨congrArg (fun x => x.1) ha, ?_, ?_⟩
      · have := congrArg (fun x => x.2.1) ha
        simpa using this
      · have := congrArg (fun x => x.2.2) ha
        simpa using this
    rfl
  · simp only [Storage.prefixIter, List.map_map]
    rw [List.pairwise_map]
    exact (hs.filter _).imp (fun h => h)
  · intro k v
    constructor
    · intro hm
      simp only [Storage.prefixIter, List.mem_map, List.mem_filter] at hm
      obtain ⟨a, ⟨ham, hap⟩, ha⟩ := hm
      have h1 : a.1 = k := congrArg (fun x => x.1) ha
      have h2 : a.2 = v := by
        have := congrArg (fun x => x.2.1) ha
        simpa using this
      subst h1 h2
      exact ⟨hap, mapGet_of_mem _ _ _ hs ham⟩
    · rintro ⟨hp, hg⟩
      have hm : (k, v) ∈ s.subspace := mem_of_mapGet _ _ _ hg
      simp only [Storage.prefixIter, List.mem_map, List.mem_filter]
      exact ⟨(k, v), ⟨hm, hp⟩, rfl⟩
  · intro m2 hs2 hext
    have he := sorted_map_ext s.subspace m2 hs hs2 hext
    simp only [Storage.prefixIter]
    rw [he]

/-- C6 witness: a concrete storage with keys written out of order and one
deleted; the iterator charges the prefix length up front and contains the
surviving prefixed pair with its per-entry gas. -/
theorem C6_prefix_iteration_witness :
    (Storage.prefixIter [2]
        (Storage.write [2, 1] [4]
          ((Storage.delete [2, 3]
            ((Storage.write [2, 3] [9]
              ((Storage.write [3] [5] (Storage.openStore DB.empty none)).1)).1)).1)).1).2
      = 1
    ∧ ([2, 1], [4], (3 : Nat)) ∈
        (Storage.prefixIter [2]
          (Storage.write [2, 1] [4]
            ((Storage.delete [2, 3]
              ((Storage.write [2, 3] [9]
                ((Storage.write [3] [5] (Storage.openStore DB.empty none)).1)).1)).1)).1).1 := by
  constructor
  · exact (C6_prefix_iteration _ [2] (by decide)).1
  · exact ((C6_prefix_iteration _ [2] (by decide)).2.2.2.1 [2, 1] [4]).mpr (by decide)

theorem filter_absorb {α : Type} (l : List α) (p q : α → Bool)
    (h : ∀ a ∈ l, q a = true → p a = true) :
    List.filter q (List.filter p l) = List.filter q l := by
  rw [List.filter_filter]
  refine List.filter_congr ?_
  intro a ha
  cases hq : q a
  · simp
  · simp [h a ha hq]

theorem runScript_append (retain : Option Nat) (script : List CBlock) (b : CBlock) :
    runScript retain (script ++ [b]) = commitAt b (runScript retain script) := by
  simp [runScript]

theorem flagHeights_append (script : List CBlock) (b : CBlock) :
    flagHeights (script ++ [b])
      = flagHeights script ++ (if b.newEpoch then [b.height] else []) := by
  cases hb : b.newEpoch <;> simp [flagHeights, List.filter_append, hb]

theorem diffRecords_append (script : List CBlock) (b : CBlock) :
    diffRecords (script ++ [b])
      = diffRecords script ++ [(b.height, diffOfOps b.ops)] := by
  simp [diffRecords]

theorem lastHeightOf_append (script : List CBlock) (b : CBlock) :
    lastHeightOf (script ++ [b]) = b.height := by
  simp [lastHeightOf, List.getLastD_concat]

theorem stateAll_append (script : List CBlock) (b : CBlock) :
    stateAll (script ++ [b]) = applyDiff (diffOfOps b.ops) (stateAll script) := by
  simp [stateAll, diffRecords_append, List.foldl_append]

theorem stateAt_append (script : List CBlock) (b : CBlock) (h : Nat) :
    stateAt (script ++ [b]) h
      = if b.height ≤ h then applyDiff (diffOfOps b.ops) (stateAt script h)
        else stateAt script h := by
  by_cases hb : b.height ≤ h <;>
    simp [stateAt, diffRecords_append, List.filter_append, List.foldl_append, hb]

theorem stateBelow_append (script : List CBlock) (b : CBlock) (hh : Nat) :
    stateBelow (script ++ [b]) hh
      = if b.height < hh then applyDiff (diffOfOps b.ops) (stateBelow script hh)
        else stateBelow script hh := by
  by_cases hb : b.height < hh <;>
    simp [stateBelow, diffRecords_append, List.filter_append, List.foldl_append, hb]

theorem wfScript_append (script : List CBlock) (b : CBlock) :
    WFScript (script ++ [b])
      ↔ WFScript script ∧ ∀ x ∈ script.map (fun bb => bb.height), x < b.height := by
  simp [WFScript, List.pairwise_append]

theorem flags_sublist (script : List CBlock) :
    (flagHeights script).Sublist (script.map (fun b => b.height)) := by
  simpa [flagHeights] using
    List.Sublist.map (fun b : CBlock => b.height) (List.filter_sublist script)

theorem flags_pairwise (script : List CBlock) (hwf : WFScript script) :
    List.Pairwise (· < ·) (flagHeights script) :=
  List.Pairwise.sublist (flags_sublist script) hwf

theorem flags_mem_heights (script : List CBlock) (x : Nat)
    (hx : x ∈ flagHeights script) : x ∈ script.map (fun b => b.height) :=
  (flags_sublist script).subset hx

theorem epochStartHeight_agree (l l2 : List Nat) (e : Nat) (he : e ≤ l.length) :
    epochStartHeight (l ++ l2) e = epochStartHeight l e := by
  cases e with
  | zero => rfl
  | succ e =>
    simp only [epochStartHeight]
    exact List.getD_append l l2 0 e (by omega)

theorem epochStartHeight_le_of_forall (l : List Nat) (H e : Nat)
    (hall : ∀ x ∈ l, x ≤ H) : epochStartHeight l e ≤ H := by
  cases e with
  | zero => exact Nat.zero_le H
  | succ e =>
    simp only [epochStartHeight]
    by_cases hlen : e < l.length
    · rw [List.getD_eq_getElem l 0 hlen]
      exact hall _ (List.getElem_mem hlen)
    · rw [List.getD_eq_default l 0 (by omega)]
      exact Nat.zero_le H

theorem epochStartHeight_mono (l : List Nat) (hp : List.Pairwise (· < ·) l)
    (a b : Nat) (hab : a ≤ b) (hb : b ≤ l.length) :
    epochStartHeight l a ≤ epochStartHeight l b := by
  cases a with
  | zero => exact Nat.zero_le _
  | succ a =>
    cases b with
    | zero => omega
    | succ b =>
      simp only [epochStartHeight]
      have hb' : b < l.length := by omega
      have ha' : a < l.length := by omega
      rw [List.getD_eq_getElem l 0 ha', List.getD_eq_getElem l 0 hb']
      rcases Nat.lt_or_ge a b with hlt | hge
      · have := List.pairwise_iff_get.mp hp ⟨a, ha'⟩ ⟨b, hb'⟩ hlt
        simpa [List.get_eq_getElem] using le_of_lt this
      · have hae : a = b := by omega
        subst hae
        exact le_refl _

theorem epochOfHeight_le_length (l : List Nat) (h : Nat) :
    epochOfHeight l h ≤ l.length := by
  simpa [epochOfHeight] using List.length_filter_le _ l

theorem epochOfHeight_append (l : List Nat) (x h : Nat) :
    epochOfHeight (l ++ [x]) h
      = epochOfHeight l h + (if x ≤ h then 1 else 0) := by
  by_cases hx : x ≤ h <;> simp [epochOfHeight, List.filter_append, hx]

theorem getD_le_of_filter_length (l : List Nat) (hp : List.Pairwise (· < ·) l)
    (h e : Nat) (hc : (l.filter (fun x => x ≤ h)).length = e + 1) :
    l.getD e 0 ≤ h := by
  induction l generalizing e with
  | nil => simp at hc
  | cons a tl ih =>
    have hrel := (List.pairwise_cons.mp hp).1
    have hptl := (List.pairwise_cons.mp hp).2
    by_cases ha : a ≤ h
    · have hfc : (a :: tl).filter (fun x => x ≤ h) = a :: tl.filter (fun x => x ≤ h) := by
        simp [List.filter_cons, ha]
      rw [hfc, List.length_cons] at hc
      have hc' : (tl.filter (fun x => x ≤ h)).length = e := by omega
      cases e with
      | zero => simpa using ha
      | succ e => simpa using ih hptl e hc'
    · have hnil : tl.filter (fun x => x ≤ h) = [] := by
        refine List.filter_eq_nil_iff.mpr ?_
        intro x hx
        have := hrel x hx
        simp only [decide_eq_true_eq]
        omega
      simp [List.filter_cons, ha, hnil] at hc

theorem epochStartHeight_epochOf_le (l : List Nat) (hp : List.Pairwise (· < ·) l)
    (h : Nat) (h1 : 1 ≤ epochOfHeight l h) :
    epochStartHeight l (epochOfHeight l h) ≤ h := by
  obtain ⟨e, he⟩ : ∃ e, epochOfHeight l h = e + 1 :=
    ⟨epochOfHeight l h - 1, by omega⟩
  rw [he]
  simp only [epochStartHeight]
  exact getD_le_of_filter_length l hp h e (by simpa [epochOfHeight] using he)

theorem oldestOf_le_length (retain : Option Nat) (script : List CBlock) :
    oldestOf retain script ≤ (flagHeights script).length := by
  cases retain <;> simp [oldestOf]

theorem diffRecords_heights (script : List CBlock) :
    (diffRecords script).map (fun hd => hd.1) = script.map (fun b => b.height) := by
  simp [diffRecords]

theorem records_height_mem (script : List CBlock) (a : Nat × Diff)
    (ha : a ∈ diffRecords script) : a.1 ∈ script.map (fun b => b.height) := by
  rw [← diffRecords_heights]
  exact List.mem_map_of_mem _ ha

theorem stateBelow_top (script : List CBlock) (H : Nat)
    (hall : ∀ x ∈ script.map (fun b => b.height), x < H) :
    stateBelow script H = stateAll script := by
  unfold stateBelow stateAll
  congr 1
  refine List.filter_eq_self.mpr ?_
  intro a ha
  simpa using hall a.1 (records_height_mem script a ha)

theorem epochStartHeight_concat_last (l : List Nat) (x : Nat) :
    epochStartHeight (l ++ [x]) (l.length + 1) = x := by
  simp only [epochStartHeight]
  rw [List.getD_eq_getElem?_getD, List.getElem?_concat_length]
  rfl

theorem oldestOf_append_le (retain : Option Nat) (script : List CBlock) (b : CBlock) :
    oldestOf retain script ≤ oldestOf retain (script ++ [b]) := by
  cases retain with
  | none => simp [oldestOf]
  | some r =>
    simp only [oldestOf, flagHeights_append, List.length_append]
    cases b.newEpoch <;> simp <;> omega

theorem snapEntry_stable (script : List CBlock) (b : CBlock) (e : Nat)
    (he : e ≤ (flagHeights script).length)
    (hlt : ∀ x ∈ script.map (fun bb => bb.height), x < b.height) :
    snapEntry (script ++ [b]) e = snapEntry script e := by
  have hag : epochStartHeight (flagHeights (script ++ [b])) e
      = epochStartHeight (flagHeights script) e := by
    rw [flagHeights_append]
    exact epochStartHeight_agree _ _ e he
  have hle : epochStartHeight (flagHeights script) e ≤ b.height :=
    epochStartHeight_le_of_forall _ _ e
      (fun x hx => le_of_lt (hlt x (flags_mem_heights script x hx)))
  simp only [snapEntry, hag, stateBelow_append, if_neg (not_lt.mpr hle)]

theorem commitAt_unfold (b : CBlock) (s : Storage) :
    commitAt b s = Storage.commit_block
      { s with blockHash := 0, blockHeight := b.height,
               blockEpoch := if b.newEpoch then s.blockEpoch + 1 else s.blockEpoch,
               predEpochs := if b.newEpoch then s.predEpochs ++ [b.height]
                 else s.predEpochs,
               subspace := applyDiff (diffOfOps b.ops) s.subspace,
               pending := s.pending ++ diffOfOps b.ops } := by
  cases hbe : b.newEpoch <;> simp [commitAt, Storage.begin_block, foldl_applyOp, hbe]

theorem commit_block_stayEq (s : Storage) (hnew : ¬ s.db.lastEpoch < s.blockEpoch) :
    Storage.commit_block s =
      { db := { subspace := s.subspace,
                diffs := (s.db.diffs ++ [(s.blockHeight, s.pending)]).filter
                  (fun hd => epochStartHeight s.predEpochs s.db.oldestEpoch ≤ hd.1),
                snapshots := s.db.snapshots.filter
                  (fun es => s.db.oldestEpoch ≤ es.1),
                lastHeight := some s.blockHeight,
                lastHash := s.blockHash,
                lastEpoch := s.blockEpoch,
                predEpochs := s.predEpochs,
                oldestEpoch := s.db.oldestEpoch },
        retainEpochs := s.retainEpochs,
        subspace := s.subspace,
        blockHeight := s.blockHeight,
        blockHash := s.blockHash,
        blockEpoch := s.blockEpoch,
        predEpochs := s.predEpochs,
        pending := [],
        lastHeight := s.blockHeight } := by
  rcases hrs : s.retainEpochs with _ | r <;>
    simp [Storage.commit_block, hnew, hrs]

theorem commit_block_newEq (s : Storage) (hnew : s.db.lastEpoch < s.blockEpoch) :
    Storage.commit_block s =
      { db := { subspace := s.subspace,
                diffs := (s.db.diffs ++ [(s.blockHeight, s.pending)]).filter
                  (fun hd => epochStartHeight s.predEpochs
                    (match s.retainEpochs with
                     | some r => s.blockEpoch - r
                     | none => s.db.oldestEpoch) ≤ hd.1),
                snapshots := ((s.db.snapshots
                    ++ [(s.blockEpoch, s.db.subspace)]).filter
                  (fun es => (match s.retainEpochs with
                     | some r => s.blockEpoch - r
                     | none => s.db.oldestEpoch) ≤ es.1)),
                lastHeight := some s.blockHeight,
                lastHash := s.blockHash,
                lastEpoch := s.blockEpoch,
                predEpochs := s.predEpochs,
                oldestEpoch := (match s.retainEpochs with
                     | some r => s.blockEpoch - r
                     | none => s.db.oldestEpoch) },
        retainEpochs := s.retainEpochs,
        subspace := s.subspace,
        blockHeight := s.blockHeight,
        blockHash := s.blockHash,
        blockEpoch := s.blockEpoch,
        predEpochs := s.predEpochs,
        pending := [],
        lastHeight := s.blockHeight } := by
  rcases hrs : s.retainEpochs with _ | r <;>
    simp [Storage.commit_block, hnew, hrs]

theorem mem_range1_le (len e : Nat) (he : e ∈ List.range' 1 len) : e ≤ len := by
  rcases List.mem_range'.mp he with ⟨i, hi, rfl⟩
  omega

theorem inv_step (retain : Option Nat) (script : List CBlock) (b : CBlock) (s : Storage)
    (inv : Inv retain script s)
    (hlt : ∀ x ∈ script.map (fun bb => bb.height), x < b.height)
    (hwfold : WFScript script) :
    Inv retain (script ++ [b]) (commitAt b s) := by
  have hwfnew : WFScript (script ++ [b]) := (wfScript_append script b).mpr ⟨hwfold, hlt⟩
  have hfl' := flags_pairwise _ hwfnew
  have hflb : ∀ x ∈ flagHeights script, x < b.height :=
    fun x hx => hlt x (flags_mem_heights script x hx)
  have hESb : ∀ e, epochStartHeight (flagHeights script) e ≤ b.height :=
    fun e => epochStartHeight_le_of_forall _ _ e (fun x hx => le_of_lt (hflb x hx))
  have holdlen := oldestOf_le_length retain script
  rw [commitAt_unfold]
  cases hbe : b.newEpoch with
  | false =>
    have hflags' : flagHeights (script ++ [b]) = flagHeights script := by
      rw [flagHeights_append, hbe]
      simp
    have holdest' : oldestOf retain (script ++ [b]) = oldestOf retain script := by
      cases retain <;> simp [oldestOf, hflags']
    simp only [hbe, Bool.false_eq_true, if_false]
    rw [commit_block_stayEq _ (by
      show ¬ s.db.lastEpoch < s.blockEpoch
      rw [inv.rdbepoch, inv.repoch]
      omega)]
    refine ⟨?_, ?_, ?_, ?_, ?_, ?_, ?_, ?_, ?_, ?_, ?_, ?_, ?_⟩
    · show applyDiff (diffOfOps b.ops) s.subspace = _
      rw [inv.rsub, stateAll_append]
    · show applyDiff (diffOfOps b.ops) s.subspace = _
      rw [inv.rsub, stateAll_append]
    · rfl
    · exact inv.rretain
    · show b.height = _
      rw [lastHeightOf_append]
    · show some b.height = _
      simp [List.getLast?_concat]
    · show s.blockEpoch = _
      rw [inv.repoch, hflags']
    · show s.blockEpoch = _
      rw [inv.repoch, hflags']
    · show s.predEpochs = _
      rw [inv.rpreds, hflags']
    · show s.predEpochs = _
      rw [inv.rpreds, hflags']
    · show s.db.oldestEpoch = _
      rw [inv.roldest, holdest']
    · show (s.db.diffs ++ [(b.height, s.pending ++ diffOfOps b.ops)]).filter
          (fun hd => epochStartHeight s.predEpochs s.db.oldestEpoch ≤ hd.1) = _
      rw [inv.rpending, inv.rpreds, inv.roldest, inv.rdiffs, hflags', holdest',
        diffRecords_append]
      simp only [List.nil_append]
      rw [List.filter_append, List.filter_append,
        filter_absorb _ _ _ (fun a _ h => h)]
    · show (s.db.snapshots.filter (fun es => s.db.oldestEpoch ≤ es.1)) = _
      rw [inv.rsnaps, inv.roldest, hflags', holdest']
      rw [List.filter_map]
      have hpred : ((fun es : Nat × KVMap => decide (oldestOf retain script ≤ es.1))
          ∘ snapEntry script) = fun e => decide (oldestOf retain script ≤ e) := by
        funext e
        simp [snapEntry]
      rw [hpred, filter_absorb _ _ _ (fun a _ h => h)]
      refine List.map_congr_left ?_
      intro e he
      have he1 : e ∈ List.range' 1 (flagHeights script).length :=
        (List.mem_filter.mp he).1
      exact (snapEntry_stable script b e (mem_range1_le _ e he1) hlt).symm
  | true =>
    have hflags' : flagHeights (script ++ [b]) = flagHeights script ++ [b.height] := by
      rw [flagHeights_append, hbe]
      simp
    have hlen' : (flagHeights (script ++ [b])).length
        = (flagHeights script).length + 1 := by
      rw [hflags']
      simp
    have hallb : ∀ x ∈ flagHeights (script ++ [b]), x ≤ b.height := by
      rw [hflags']
      intro x hx
      rcases List.mem_append.mp hx with h1 | h2
      · exact le_of_lt (hflb x h1)
      · simp at h2
        omega
    have hESb' : ∀ e, epochStartHeight (flagHeights (script ++ [b])) e ≤ b.height :=
      fun e => epochStartHeight_le_of_forall _ _ e hallb
    have holdmono : oldestOf retain script ≤ oldestOf retain (script ++ [b]) :=
      oldestOf_append_le retain script b
    have holdlen' := oldestOf_le_length retain (script ++ [b])
    have hstartmono : epochStartHeight (flagHeights script) (oldestOf retain script)
        ≤ epochStartHeight (flagHeights (script ++ [b]))
            (oldestOf retain (script ++ [b])) := by
      have h1 : epochStartHeight (flagHeights script) (oldestOf retain script)
          = epochStartHeight (flagHeights (script ++ [b]))
              (oldestOf retain script) := by
        rw [hflags']
        exact (epochStartHeight_agree _ _ _ holdlen).symm
      rw [h1]
      exact epochStartHeight_mono _ hfl' _ _ holdmono holdlen'
    simp only [hbe, if_true]
    rw [commit_block_newEq _ (by
      show s.db.lastEpoch < s.blockEpoch + 1
      rw [inv.rdbepoch, inv.repoch]
      omega)]
    refine ⟨?_, ?_, ?_, ?_, ?_, ?_, ?_, ?_, ?_, ?_, ?_, ?_, ?_⟩
    · show applyDiff (diffOfOps b.ops) s.subspace = _
      rw [inv.rsub, stateAll_append]
    · show applyDiff (diffOfOps b.ops) s.subspace = _
      rw [inv.rsub, stateAll_append]
    · rfl
    · exact inv.rretain
    · show b.height = _
      rw [lastHeightOf_append]
    · show some b.height = _
      simp [List.getLast?_concat]
    · show s.blockEpoch + 1 = _
      rw [inv.repoch, hlen']
    · show s.blockEpoch + 1 = _
      rw [inv.repoch, hlen']
    · show s.predEpochs ++ [b.height] = _
      rw [inv.rpreds, hflags']
    · show s.predEpochs ++ [b.height] = _
      rw [inv.rpreds, hflags']
    · show (match s.retainEpochs with
          | some r => s.blockEpoch + 1 - r
          | none => s.db.oldestEpoch) = _
      rw [inv.rretain]
      cases retain with
      | none =>
        rw [inv.roldest]
        rfl
      | some r =>
        rw [inv.repoch]
        simp [oldestOf, hlen']
    · show (s.db.diffs ++ [(b.height, s.pending ++ diffOfOps b.ops)]).filter
          (fun hd => epochStartHeight (s.predEpochs ++ [b.height])
            (match s.retainEpochs with
             | some r => s.blockEpoch + 1 - r
             | none => s.db.oldestEpoch) ≤ hd.1) = _
      have holdm : (match s.retainEpochs with
          | some r => s.blockEpoch + 1 - r
          | none => s.db.oldestEpoch) = oldestOf retain (script ++ [b]) := by
        rw [inv.rretain]
        cases retain with
        | none =>
          rw [inv.roldest]
          rfl
        | some r =>
          rw [inv.repoch]
          simp [oldestOf, hlen']
      rw [holdm, inv.rpending, inv.rpreds, inv.rdiffs, ← hflags',
        diffRecords_append]
      simp only [List.nil_append]
      rw [List.filter_append, List.filter_append]
      have habs := filter_absorb (diffRecords script)
        (fun hd => decide (epochStartHeight (flagHeights script)
          (oldestOf retain script) ≤ hd.1))
        (fun hd => decide (epochStartHeight (flagHeights (script ++ [b]))
          (oldestOf retain (script ++ [b])) ≤ hd.1))
        (fun a _ ha => by
          simp only [decide_eq_true_eq] at *
          exact le_trans hstartmono ha)
      rw [habs]
    · show ((s.db.snapshots ++ [(s.blockEpoch + 1, s.db.subspace)]).filter
          (fun es => (match s.retainEpochs with
             | some r => s.blockEpoch + 1 - r
             | none => s.db.oldestEpoch) ≤ es.1)) = _
      have holdm : (match s.retainEpochs with
          | some r => s.blockEpoch + 1 - r
          | none => s.db.oldestEpoch) = oldestOf retain (script ++ [b]) := by
        rw [inv.rretain]
        cases retain with
        | none =>
          rw [inv.roldest]
          rfl
        | some r =>
          rw [inv.repoch]
          simp [oldestOf, hlen']
      rw [holdm, inv.rsnaps, inv.rdbsub, inv.repoch]
      rw [List.filter_append, List.filter_map]
      have hpred : ((fun es : Nat × KVMap =>
            decide (oldestOf retain (script ++ [b]) ≤ es.1)) ∘ snapEntry script)
          = fun e => decide (oldestOf retain (script ++ [b]) ≤ e) := by
        funext e
        simp [snapEntry]
      rw [hpred, filter_absorb _ _ _ (fun a _ ha => ?_)]
      swap
      · simp only [decide_eq_true_eq] at *
        exact le_trans holdmono ha
      rw [hlen', List.range'_concat, List.filter_append]
      have hkeepnew : ((List.filter (fun e =>
            decide (oldestOf retain (script ++ [b]) ≤ e))
            [1 + 1 * (flagHeights script).length]))
          = [1 + 1 * (flagHeights script).length] := by
        simp only [List.filter_cons, List.filter_nil, decide_eq_true_eq]
        rw [if_pos]
        rw [hlen'] at holdlen'
        omega
      rw [hkeepnew, List.map_append]
      congr 1
      · refine List.map_congr_left ?_
        intro e he
        have he1 : e ∈ List.range' 1 (flagHeights script).length :=
          (List.mem_filter.mp he).1
        exact (snapEntry_stable script b e (mem_range1_le _ e he1) hlt).symm
      · have h1l : 1 + 1 * (flagHeights script).length
            = (flagHeights script).length + 1 := by omega
        simp only [List.map_cons, List.map_nil, h1l]
        have hse : snapEntry (script ++ [b]) ((flagHeights script).length + 1)
            = ((flagHeights script).length + 1, stateAll script) := by
          simp only [snapEntry, hflags', epochStartHeight_concat_last]
          rw [stateBelow_append, if_neg (lt_irrefl b.height)]
          rw [stateBelow_top script b.height hlt]
        rw [hse]
        simp only [List.filter_cons, List.filter_nil, decide_eq_true_eq]
        rw [if_pos]
        rw [hlen'] at holdlen'
        omega

theorem runScript_inv (retain : Option Nat) (script : List CBlock)
    (hwf : WFScript script) : Inv retain script (runScript retain script) := by
  induction script using List.reverseRecOn with
  | nil =>
    refine ⟨rfl, rfl, rfl, rfl, rfl, rfl, rfl, rfl, rfl, rfl, ?_, rfl, rfl⟩
    cases retain with
    | none => rfl
    | some r => simp [oldestOf, flagHeights, runScript, Storage.openStore, DB.empty]
  | append_singleton script b ih =>
    have hparts := (wfScript_append script b).mp hwf
    rw [runScript_append]
    exact inv_step retain script b _ (ih hparts.1) hparts.2 hparts.1

theorem heights_le_last (script : List CBlock) (hwf : WFScript script) (x : Nat)
    (hx : x ∈ script.map (fun b => b.height)) : x ≤ lastHeightOf script := by
  induction script using List.reverseRecOn with
  | nil => simp at hx
  | append_singleton script b ih =>
    have hparts := (wfScript_append script b).mp hwf
    rw [lastHeightOf_append]
    rw [List.map_append] at hx
    rcases List.mem_append.mp hx with h1 | h2
    · exact le_of_lt (hparts.2 x h1)
    · simp at h2
      omega

theorem stateAt_frontier (script : List CBlock) (hwf : WFScript script) (h : Nat)
    (hge : lastHeightOf script ≤ h) : stateAt script h = stateAll script := by
  unfold stateAt stateAll
  congr 1
  refine List.filter_eq_self.mpr ?_
  intro a ha
  have hm := heights_le_last script hwf a.1 (records_height_mem script a ha)
  simp only [decide_eq_true_eq]
  omega

theorem scanDiffs_append (k : Key) (h : Nat) (l1 l2 : List (Nat × Diff)) :
    scanDiffs k h (l1 ++ l2) =
      match scanDiffs k h l2 with
      | some r => some r
      | none => scanDiffs k h l1 := by
  induction l1 with
  | nil =>
    simp only [List.nil_append]
    cases scanDiffs k h l2 <;> rfl
  | cons hd tl ih =>
    show (match scanDiffs k h (tl ++ l2) with
          | some r => some r
          | none => if hd.1 ≤ h then diffGet k hd.2 else none) = _
    have hcons : scanDiffs k h (hd :: tl) =
        match scanDiffs k h tl with
        | some r => some r
        | none => if hd.1 ≤ h then diffGet k hd.2 else none := rfl
    rw [ih, hcons]
    cases scanDiffs k h l2 <;> cases scanDiffs k h tl <;> rfl

theorem lastMutation_append (script : List CBlock) (b : CBlock) (h : Nat) (k : Key) :
    lastMutation (script ++ [b]) h k =
      if b.height ≤ h then
        match diffGet k (diffOfOps b.ops) with
        | some m => some m
        | none => lastMutation script h k
      else lastMutation script h k := by
  by_cases hb : b.height ≤ h
  · have hfe : (script ++ [b]).filter (fun bb => bb.height ≤ h)
        = script.filter (fun bb => bb.height ≤ h) ++ [b] := by
      simp [List.filter_append, hb]
    rw [lastMutation, hfe, List.foldl_append, if_pos hb]
    rfl
  · have hfe : (script ++ [b]).filter (fun bb => bb.height ≤ h)
        = script.filter (fun bb => bb.height ≤ h) := by
      simp [List.filter_append, hb]
    rw [lastMutation, hfe, if_neg hb]
    rfl

theorem scanDiffs_eq_lastMutation (script : List CBlock) (k : Key) (h : Nat) :
    scanDiffs k h (diffRecords script) = lastMutation script h k := by
  induction script using List.reverseRecOn with
  | nil => rfl
  | append_singleton script b ih =>
    rw [diffRecords_append, scanDiffs_append, lastMutation_append]
    by_cases hb : b.height ≤ h
    · rw [if_pos hb]
      have hsingle : scanDiffs k h [(b.height, diffOfOps b.ops)]
          = diffGet k (diffOfOps b.ops) := by
        simp [scanDiffs, hb]
      rw [hsingle, ih]
    · rw [if_neg hb]
      have hsingle : scanDiffs k h [(b.height, diffOfOps b.ops)] = none := by
        simp [scanDiffs, hb]
      rw [hsingle, ih]

theorem valueAsOf_eq_mapGet (script : List CBlock) (h : Nat) (k : Key) :
    valueAsOf script h k = mapGet k (stateAt script h) := by
  induction script using List.reverseRecOn with
  | nil => rfl
  | append_singleton script b ih =>
    rw [stateAt_append]
    by_cases hb : b.height ≤ h
    · rw [if_pos hb, mapGet_applyDiff]
      unfold valueAsOf
      rw [lastMutation_append, if_pos hb]
      cases hd : diffGet k (diffOfOps b.ops) with
      | none => simpa [valueAsOf] using ih
      | some m => cases m <;> rfl
    · rw [if_neg hb]
      unfold valueAsOf
      rw [lastMutation_append, if_neg hb]
      exact ih

theorem diffs_complete (script : List CBlock) (hwf : WFScript script) :
    (runScript none script).db.diffs = diffRecords script := by
  rw [(runScript_inv none script hwf).rdiffs]
  refine List.filter_eq_self.mpr ?_
  intro a _
  simp [oldestOf, epochStartHeight]

/-- C4: for every height at or below the last committed height,
`read_with_height` returns the value last written to the key at or before
that height, and nothing when the key was never written or its last
mutation at or before that height was a delete. -/
theorem C4_read_with_height_semantics (script : List CBlock) (k : Key) (h : Nat)
    (hwf : WFScript script) (hle : h ≤ lastHeightOf script) :
    (Storage.read_with_height k h (runScript none script)).1 = valueAsOf script h k := by
  have inv := runScript_inv none script hwf
  unfold Storage.read_with_height
  by_cases hfr : (runScript none script).lastHeight ≤ h
  · rw [if_pos hfr]
    have hheq : lastHeightOf script ≤ h := by
      rw [← inv.rlastH]
      exact hfr
    rw [valueAsOf_eq_mapGet, stateAt_frontier script hwf h hheq, ← inv.rdbsub]
    cases mapGet k (runScript none script).db.subspace <;> rfl
  · rw [if_neg hfr, diffs_complete script hwf, scanDiffs_eq_lastMutation]
    unfold valueAsOf
    cases hlm : lastMutation script h k with
    | none => rfl
    | some m => cases m <;> rfl

/-- C4 witness: a key written at height 1 and deleted at height 2; the read
at the pre-delete height still sees the value, while a current read after
the delete commit sees nothing. -/
theorem C4_read_with_height_semantics_witness :
    (Storage.read_with_height [9] 1
        (runScript none
          [⟨1, false, [Op.put [9] [7]]⟩, ⟨2, false, [Op.del [9]]⟩])).1
      = some [7]
    ∧ (Storage.read [9]
        (runScript none
          [⟨1, false, [Op.put [9] [7]]⟩, ⟨2, false, [Op.del [9]]⟩])).1
      = none := by
  constructor
  · rw [C4_read_with_height_semantics
      [⟨1, false, [Op.put [9] [7]]⟩, ⟨2, false, [Op.del [9]]⟩] [9] 1
      (by decide) (by decide)]
    decide
  · decide

/-- C2: a height at or below the committed frontier fails with
`PrunedHeightError` exactly when its epoch is older than the pruning
watermark, and reconstructs successfully otherwise. -/
theorem C2_get_merkle_tree_pruning (s : Storage) (h : Nat)
    (hle : h ≤ s.lastHeight) :
    (Storage.get_merkle_tree h s = .error .prunedHeight
      ↔ epochOfHeight s.predEpochs h < s.db.oldestEpoch)
    ∧ (s.db.oldestEpoch ≤ epochOfHeight s.predEpochs h →
        ∃ t, Storage.get_merkle_tree h s = .ok t) := by
  unfold Storage.get_merkle_tree
  rw [if_neg (by omega)]
  constructor
  · by_cases hp : epochOfHeight s.predEpochs h < s.db.oldestEpoch
    · simp [hp]
    · simp [hp]
  · intro hkeep
    rw [if_neg (by omega)]
    exact ⟨_, rfl⟩

/-- C2 witness: the concrete pruning scenario -- epochs starting at heights
1, 6 and 11 with a retention of one epoch; after the third epoch's commit
the trees of heights 1 and 5 are pruned while height 6 reconstructs. -/
theorem C2_get_merkle_tree_pruning_witness :
    Storage.get_merkle_tree 1
        (runScript (some 1)
          [⟨1, true, [Op.put [1] [1]]⟩, ⟨6, true, [Op.put [2] [2]]⟩,
           ⟨11, true, []⟩])
      = .error .prunedHeight
    ∧ Storage.get_merkle_tree 5
        (runScript (some 1)
          [⟨1, true, [Op.put [1] [1]]⟩, ⟨6, true, [Op.put [2] [2]]⟩,
           ⟨11, true, []⟩])
      = .error .prunedHeight
    ∧ (∃ t, Storage.get_merkle_tree 6
        (runScript (some 1)
          [⟨1, true, [Op.put [1] [1]]⟩, ⟨6, true, [Op.put [2] [2]]⟩,
           ⟨11, true, []⟩])
      = .ok t) := by
  refine ⟨?_, ?_, ?_⟩
  · exact (C2_get_merkle_tree_pruning _ 1 (by decide)).1.mpr (by decide)
  · exact (C2_get_merkle_tree_pruning _ 5 (by decide)).1.mpr (by decide)
  · exact (C2_get_merkle_tree_pruning _ 6 (by decide)).2 (by decide)

theorem filter_eq_singleton (l : List Nat) (e : Nat) (hn : l.Nodup) (he : e ∈ l) :
    l.filter (fun x => decide (x = e)) = [e] := by
  induction l with
  | nil => simp at he
  | cons a tl ih =>
    rcases List.mem_cons.mp he with hea | htl
    · subst hea
      have hnot : e ∉ tl := (List.nodup_cons.mp hn).1
      have hz : tl.filter (fun x => decide (x = e)) = [] := by
        refine List.filter_eq_nil_iff.mpr ?_
        intro x hx
        simp only [decide_eq_true_eq]
        intro hxe
        exact hnot (hxe ▸ hx)
      simp [List.filter_cons, hz]
    · have hne : a ≠ e := by
        intro hae
        exact (List.nodup_cons.mp hn).1 (hae ▸ htl)
      simp [List.filter_cons, hne, ih (List.nodup_cons.mp hn).2 htl]

theorem snaps_lookup (script : List CBlock) (retain : Option Nat) (e : Nat)
    (h1 : 1 ≤ e) (h2 : e ≤ (flagHeights script).length)
    (h3 : oldestOf retain script ≤ e) :
    ((((List.range' 1 (flagHeights script).length).filter
        (fun x => oldestOf retain script ≤ x)).map (snapEntry script)).filter
      (fun es => es.1 = e)).head? = some (snapEntry script e) := by
  rw [List.filter_map]
  have hpred : ((fun es : Nat × KVMap => decide (es.1 = e)) ∘ snapEntry script)
      = fun x => decide (x = e) := by
    funext x
    simp [snapEntry]
  rw [hpred]
  have hsingle : ((List.range' 1 (flagHeights script).length).filter
      (fun x => decide (oldestOf retain script ≤ x))).filter
        (fun x => decide (x = e)) = [e] := by
    refine filter_eq_singleton _ e (List.Nodup.filter _ (List.nodup_range' _ _)) ?_
    refine List.mem_filter.mpr ⟨?_, by simpa using h3⟩
    refine List.mem_range'.mpr ⟨e - 1, by omega, by omega⟩
  rw [hsingle]
  rfl

theorem records_pairwise (script : List CBlock) (hwf : WFScript script) :
    List.Pairwise (fun a b : Nat × Diff => a.1 < b.1) (diffRecords script) := by
  have hp : List.Pairwise (· < ·) ((diffRecords script).map (fun hd => hd.1)) := by
    rw [diffRecords_heights]
    exact hwf
  exact List.pairwise_map.mp hp

theorem filter_split_le (l : List (Nat × Diff))
    (hp : List.Pairwise (fun a b : Nat × Diff => a.1 < b.1) l) (c h : Nat)
    (hch : c ≤ h) :
    l.filter (fun x => x.1 ≤ h)
      = l.filter (fun x => x.1 < c) ++ l.filter (fun x => c ≤ x.1 ∧ x.1 ≤ h) := by
  induction l with
  | nil => rfl
  | cons a tl ih =>
    have hrel := (List.pairwise_cons.mp hp).1
    have hptl := (List.pairwise_cons.mp hp).2
    by_cases hac : a.1 < c
    · have hah : a.1 ≤ h := by omega
      have h3 : ¬(c ≤ a.1 ∧ a.1 ≤ h) := by omega
      rw [List.filter_cons, List.filter_cons, List.filter_cons,
        if_pos (by simpa using hah), if_pos (by simpa using hac),
        if_neg (by simpa using h3), ih hptl, List.cons_append]
    · have hfz : tl.filter (fun x : Nat × Diff => decide (x.1 < c)) = [] := by
        refine List.filter_eq_nil_iff.mpr ?_
        intro x hx
        have := hrel x hx
        simp only [decide_eq_true_eq]
        omega
      by_cases hah : a.1 ≤ h
      · have h3 : c ≤ a.1 ∧ a.1 ≤ h := ⟨by omega, hah⟩
        rw [List.filter_cons, List.filter_cons, List.filter_cons,
          if_pos (by simpa using hah), if_neg (by simpa using hac),
          if_pos (by simpa using h3), ih hptl, hfz]
        simp
      · have h3 : ¬(c ≤ a.1 ∧ a.1 ≤ h) := by omega
        rw [List.filter_cons, List.filter_cons, List.filter_cons,
          if_neg (by simpa using hah), if_neg (by simpa using hac),
          if_neg (by simpa using h3), ih hptl]

theorem diffRecords_filter_le (script : List CBlock) (h : Nat) :
    diffRecords (script.filter (fun b => b.height ≤ h))
      = (diffRecords script).filter (fun hd => hd.1 ≤ h) := by
  unfold diffRecords
  rw [List.filter_map]
  have hc : ∀ a ∈ script,
      (fun b : CBlock => decide (b.height ≤ h)) a
        = ((fun hd : Nat × Diff => decide (hd.1 ≤ h))
            ∘ fun b : CBlock => (b.height, diffOfOps b.ops)) a := by
    intro a _
    simp [Function.comp]
  rw [List.filter_congr hc]

theorem wf_filter (script : List CBlock) (hwf : WFScript script) (p : CBlock → Bool) :
    WFScript (script.filter p) :=
  List.Pairwise.sublist (List.Sublist.map _ (List.filter_sublist script)) hwf

theorem stateAll_filter_le (script : List CBlock) (h : Nat) :
    stateAll (script.filter (fun b => b.height ≤ h)) = stateAt script h := by
  unfold stateAll stateAt
  rw [diffRecords_filter_le]

/-- C3: for every non-pruned committed height, `get_merkle_tree` rebuilds
exactly the reference state of that height; the rebuilt root equals the
live `merkle_root` of the storage as of that height's commit, and a key is
present in the rebuilt tree exactly when its last mutation at or before the
height (batched or direct) was a write. -/
theorem C3_get_merkle_tree_reconstruction (retain : Option Nat)
    (script : List CBlock) (h : Nat) (hwf : WFScript script)
    (hle : h ≤ lastHeightOf script)
    (hkeep : oldestOf retain script ≤ epochOfHeight (flagHeights script) h) :
    Storage.get_merkle_tree h (runScript retain script) = .ok (stateAt script h)
    ∧ treeRoot (stateAt script h)
        = Storage.merkle_root
            (runScript retain (script.filter (fun b => b.height ≤ h)))
    ∧ (∀ k, treeHasKey k (stateAt script h) = true
        ↔ ∃ v, valueAsOf script h k = some v) := by
  have inv := runScript_inv retain script hwf
  have hfl := flags_pairwise script hwf
  refine ⟨?_, ?_, ?_⟩
  · simp only [Storage.get_merkle_tree]
    rw [if_neg (by rw [inv.rlastH]; omega)]
    rw [inv.rpreds, inv.roldest, inv.rdiffs, inv.rsnaps]
    rw [if_neg (not_lt.mpr hkeep)]
    by_cases he0 : epochOfHeight (flagHeights script) h = 0
    · rw [he0]
      have hold0 : oldestOf retain script = 0 := by omega
      rw [hold0]
      rw [if_pos rfl]
      have hf1 : (diffRecords script).filter
          (fun hd => decide (epochStartHeight (flagHeights script) 0 ≤ hd.1))
          = diffRecords script :=
        List.filter_eq_self.mpr (fun a _ => by simp [epochStartHeight])
      have hf2 : ∀ a ∈ diffRecords script,
          (fun hd : Nat × Diff => decide (epochStartHeight (flagHeights script) 0
            ≤ hd.1 ∧ hd.1 ≤ h)) a
          = (fun hd : Nat × Diff => decide (hd.1 ≤ h)) a := by
        intro a _
        simp [epochStartHeight]
      rw [hf1, List.filter_congr hf2]
      rfl
    · have h1e : 1 ≤ epochOfHeight (flagHeights script) h := by omega
      have h2e := epochOfHeight_le_length (flagHeights script) h
      rw [if_neg he0]
      rw [snaps_lookup script retain _ h1e h2e hkeep]
      have habs := filter_absorb (diffRecords script)
        (fun hd => decide (epochStartHeight (flagHeights script)
          (oldestOf retain script) ≤ hd.1))
        (fun hd => decide (epochStartHeight (flagHeights script)
          (epochOfHeight (flagHeights script) h) ≤ hd.1 ∧ hd.1 ≤ h))
        (fun a _ ha => by
          simp only [decide_eq_true_eq] at *
          have hmono := epochStartHeight_mono (flagHeights script) hfl
            (oldestOf retain script) (epochOfHeight (flagHeights script) h)
            hkeep h2e
          exact le_trans hmono ha.1)
      rw [habs]
      have hsplit := filter_split_le (diffRecords script)
        (records_pairwise script hwf)
        (epochStartHeight (flagHeights script) (epochOfHeight (flagHeights script) h))
        h (epochStartHeight_epochOf_le (flagHeights script) hfl h h1e)
      show Except.ok (((diffRecords script).filter
          (fun hd => decide (epochStartHeight (flagHeights script)
            (epochOfHeight (flagHeights script) h) ≤ hd.1 ∧ hd.1 ≤ h))).foldl
          (fun m hd => applyDiff hd.2 m)
          (stateBelow script (epochStartHeight (flagHeights script)
            (epochOfHeight (flagHeights script) h))))
        = Except.ok (stateAt script h)
      congr 1
      unfold stateAt
      rw [hsplit, List.foldl_append]
      rfl
  · unfold treeRoot Storage.merkle_root
    rw [(runScript_inv retain _ (wf_filter script hwf _)).rsub, stateAll_filter_le]
  · intro k
    unfold treeHasKey
    rw [valueAsOf_eq_mapGet]
    cases mapGet k (stateAt script h) <;> simp

/-- C3 witness: commit a write at height 1 and a delete at height 2; the
tree at height 1 reconstructs to the reference state of height 1. -/
theorem C3_get_merkle_tree_reconstruction_witness :
    Storage.get_merkle_tree 1
        (runScript none [⟨1, false, [Op.put [3] [7]]⟩, ⟨2, false, [Op.del [3]]⟩])
      = .ok (stateAt [⟨1, false, [Op.put [3] [7]]⟩, ⟨2, false, [Op.del [3]]⟩] 1) :=
  (C3_get_merkle_tree_reconstruction none
    [⟨1, false, [Op.put [3] [7]]⟩, ⟨2, false, [Op.del [3]]⟩] 1
    (by decide) (by decide) (by decide)).1

/-- C10: whenever the rewards computation returns, the clamped inflation it
returns first is at least `I256::from(i64::MAX)`, because the code takes
`I256::max` of the noterized inflation and that constant; in particular it
is never the zero noterized inflation computed for an empty shielded pool. -/
theorem C10_clamped_inflation_ge_i64_max (inflation : Nat) (total_in : Int)
    (denomination_offset : Nat) :
    i64MaxI ≤ (calculate_masp_rewards_core inflation total_in denomination_offset).1
    ∧ (calculate_masp_rewards_core inflation total_in denomination_offset).1 ≠ 0 := by
  have hmax : i64MaxI
      ≤ (calculate_masp_rewards_core inflation total_in denomination_offset).1 :=
    le_max_right _ _
  refine ⟨hmax, ?_⟩
  intro h0
  rw [h0] at hmax
  norm_num [i64MaxI] at hmax

theorem hashRow_append (c : Nat → Nat → Nat → Nat) (e0 d : Nat) :
    ∀ (xs ys : List Nat), xs.length % 2 = 0 →
      hashRow c e0 d (xs ++ ys) = hashRow c e0 d xs ++ hashRow c e0 d ys
  | [], ys, _ => by simp [hashRow]
  | [a], _, hx => by simp at hx
  | a :: b :: rest, ys, hx => by
    have hrest : rest.length % 2 = 0 := by
      simp only [List.length_cons] at hx
      omega
    show c d a b :: hashRow c e0 d (rest ++ ys)
        = (c d a b :: hashRow c e0 d rest) ++ hashRow c e0 d ys
    rw [hashRow_append c e0 d rest ys hrest]
    rfl

theorem hashRow_length (c : Nat → Nat → Nat → Nat) (e0 d : Nat) :
    ∀ (ns : List Nat), (hashRow c e0 d ns).length = (ns.length + 1) / 2
  | [] => rfl
  | [_] => by simp [hashRow]
  | _ :: _ :: rest => by
    show (hashRow c e0 d rest).length + 1 = _
    rw [hashRow_length c e0 d rest]
    simp only [List.length_cons]
    omega

theorem levelFold_nil (c : Nat → Nat → Nat → Nat) (e0 : Nat) :
    ∀ (depth d : Nat), levelFold c e0 d depth [] = []
  | 0, _ => rfl
  | depth + 1, d => by
    show levelFold c e0 (d + 1) depth (hashRow c e0 d []) = []
    exact levelFold_nil c e0 depth (d + 1)

theorem levelFold_append (c : Nat → Nat → Nat → Nat) (e0 : Nat) :
    ∀ (k d : Nat) (p rest : List Nat), p.length = 2 ^ k →
      levelFold c e0 d k (p ++ rest)
        = levelFold c e0 d k p ++ levelFold c e0 d k rest
  | 0, _, _, _, _ => rfl
  | k + 1, d, p, rest, hp => by
    show levelFold c e0 (d + 1) k (hashRow c e0 d (p ++ rest)) = _
    rw [hashRow_append c e0 d p rest (by rw [hp, Nat.pow_succ]; omega)]
    rw [levelFold_append c e0 k (d + 1) (hashRow c e0 d p) (hashRow c e0 d rest)
      (by rw [hashRow_length, hp, Nat.pow_succ]; omega)]
    rfl

theorem levelFold_length_one (c : Nat → Nat → Nat → Nat) (e0 : Nat) :
    ∀ (k d : Nat) (ns : List Nat), 1 ≤ ns.length → ns.length ≤ 2 ^ k →
      (levelFold c e0 d k ns).length = 1
  | 0, d, ns, h1, h2 => by
    show ns.length = 1
    simpa using le_antisymm (by simpa using h2) h1
  | k + 1, d, ns, h1, h2 => by
    show (levelFold c e0 (d + 1) k (hashRow c e0 d ns)).length = 1
    refine levelFold_length_one c e0 k (d + 1) _ ?_ ?_
    · rw [hashRow_length]
      omega
    · rw [hashRow_length]
      rw [Nat.pow_succ] at h2
      omega

theorem levelFold_singleton (c : Nat → Nat → Nat → Nat) (e0 k d : Nat)
    (p : List Nat) (h1 : 1 ≤ p.length) (h2 : p.length ≤ 2 ^ k) :
    levelFold c e0 d k p = [buildRoot c e0 d k p] := by
  obtain ⟨a, ha⟩ := List.length_eq_one.mp (levelFold_length_one c e0 k d p h1 h2)
  rw [ha]
  unfold buildRoot
  rw [ha]
  rfl

theorem levelFold_comp (c : Nat → Nat → Nat → Nat) (e0 : Nat) :
    ∀ (k m d : Nat) (ns : List Nat),
      levelFold c e0 d (k + m) ns
        = levelFold c e0 (d + k) m (levelFold c e0 d k ns)
  | 0, m, d, ns => by
    rw [Nat.zero_add]
    rfl
  | k + 1, m, d, ns => by
    have hsum : k + 1 + m = (k + m) + 1 := by omega
    rw [hsum]
    show levelFold c e0 (d + 1) (k + m) (hashRow c e0 d ns) = _
    rw [levelFold_comp c e0 k m (d + 1) (hashRow c e0 d ns)]
    have hd : d + 1 + k = d + (k + 1) := by omega
    rw [hd]
    rfl

theorem concat_map_singleton (f : List Nat → Nat) :
    ∀ (l : List (List Nat)), concatAll (l.map (fun p => [f p])) = l.map f
  | [] => rfl
  | a :: tl => by
    show f a :: concatAll (tl.map (fun p => [f p])) = f a :: tl.map f
    rw [concat_map_singleton f tl]

theorem chunksOf_nil (csub : Nat) : chunksOf csub [] = [] := by
  simp [chunksOf]

theorem chunksOf_cons (csub : Nat) (x : Nat) (xs : List Nat) :
    chunksOf csub (x :: xs)
      = (x :: xs).take (csub + 1) :: chunksOf csub ((x :: xs).drop (csub + 1)) := by
  simp [chunksOf]

theorem chunksOf_mem_len (csub : Nat) : ∀ (l : List Nat), ∀ p ∈ chunksOf csub l,
    1 ≤ p.length ∧ p.length ≤ csub + 1
  | [] => by
    intro p hp
    rw [chunksOf_nil] at hp
    simp at hp
  | x :: xs => by
    intro p hp
    rw [chunksOf_cons] at hp
    rcases List.mem_cons.mp hp with rfl | htl
    · constructor
      · simp [List.length_take]
      · simp [List.length_take]
    · exact chunksOf_mem_len csub ((x :: xs).drop (csub + 1)) p htl
termination_by l => l.length
decreasing_by
  simp only [List.length_drop, List.length_cons]
  omega

theorem levelFold_chunks (c : Nat → Nat → Nat → Nat) (e0 k : Nat) :
    ∀ (ns : List Nat),
      levelFold c e0 0 k ns
        = concatAll ((chunksOf (2 ^ k - 1) ns).map (levelFold c e0 0 k))
  | [] => by
    rw [chunksOf_nil]
    simp [levelFold_nil, concatAll]
  | x :: xs => by
    rw [chunksOf_cons, List.map_cons]
    show _ = levelFold c e0 0 k ((x :: xs).take (2 ^ k - 1 + 1))
        ++ concatAll ((chunksOf (2 ^ k - 1) ((x :: xs).drop (2 ^ k - 1 + 1))).map
            (levelFold c e0 0 k))
    by_cases hlen : xs.length + 1 ≤ 2 ^ k - 1 + 1
    · have hdrop : (x :: xs).drop (2 ^ k - 1 + 1) = [] :=
        List.drop_eq_nil_of_le (by simpa using hlen)
      have htake : (x :: xs).take (2 ^ k - 1 + 1) = x :: xs :=
        List.take_of_length_le (by simpa using hlen)
      rw [htake, hdrop, chunksOf_nil]
      show _ = levelFold c e0 0 k (x :: xs) ++ concatAll []
      simp [concatAll]
    · have htake_len : ((x :: xs).take (2 ^ k - 1 + 1)).length = 2 ^ k := by
        have hc1 : 2 ^ k - 1 + 1 = 2 ^ k := by
          have := Nat.one_le_two_pow (n := k)
          omega
        rw [List.length_take]
        simp only [List.length_cons]
        omega
      have hsplit : (x :: xs).take (2 ^ k - 1 + 1) ++ (x :: xs).drop (2 ^ k - 1 + 1)
          = x :: xs := List.take_append_drop _ _
      calc levelFold c e0 0 k (x :: xs)
          = levelFold c e0 0 k ((x :: xs).take (2 ^ k - 1 + 1)
              ++ (x :: xs).drop (2 ^ k - 1 + 1)) := by rw [hsplit]
        _ = levelFold c e0 0 k ((x :: xs).take (2 ^ k - 1 + 1))
              ++ levelFold c e0 0 k ((x :: xs).drop (2 ^ k - 1 + 1)) :=
            levelFold_append c e0 k 0 _ _ htake_len
        _ = _ := by
            rw [levelFold_chunks c e0 k ((x :: xs).drop (2 ^ k - 1 + 1))]
termination_by ns => ns.length
decreasing_by
  simp only [List.length_drop, List.length_cons]
  omega

/-- C9: cutting the conversion leaf list into the power-of-two chunks the
code computes, building one sub-tree per chunk and merging the sub-trees
yields exactly the root of the single sequential tree over the whole list
-- for every leaf list, combining hash, thread count and tree depth that
accommodates the chunk size. -/
theorem C9_chunked_tree_root_eq_sequential (c : Nat → Nat → Nat → Nat)
    (e0 D t : Nat) (ns : List Nat)
    (hk : roundK ((ns.length - 1) / t + 1) ((ns.length - 1) / t + 1) 0 ≤ D) :
    parRootD c e0 D t ns = seqRootD c e0 D ns := by
  simp only [parRootD, seqRootD]
  generalize hgk : roundK ((ns.length - 1) / t + 1) ((ns.length - 1) / t + 1) 0 = k
  rw [hgk] at hk
  have hc1 : 2 ^ k - 1 + 1 = 2 ^ k := by
    have := Nat.one_le_two_pow (n := k)
    omega
  have hcomp : levelFold c e0 0 D ns
      = levelFold c e0 (0 + k) (D - k) (levelFold c e0 0 k ns) := by
    rw [← levelFold_comp c e0 k (D - k) 0 ns]
    congr 1
    omega
  have hinner : levelFold c e0 0 k ns
      = (chunksOf (2 ^ k - 1) ns).map (buildRoot c e0 0 k) := by
    rw [levelFold_chunks c e0 k ns]
    have hmaps : (chunksOf (2 ^ k - 1) ns).map (levelFold c e0 0 k)
        = (chunksOf (2 ^ k - 1) ns).map (fun p => [buildRoot c e0 0 k p]) := by
      refine List.map_congr_left ?_
      intro p hp
      have hb := chunksOf_mem_len (2 ^ k - 1) ns p hp
      exact levelFold_singleton c e0 k 0 p hb.1 (by omega)
    rw [hmaps, concat_map_singleton]
  unfold buildRoot
  rw [hcomp, hinner, Nat.zero_add]
  congr 1
  · refine congrArg (levelFold c e0 k (D - k)) ?_
    refine List.map_congr_left ?_
    intro p hp
    unfold buildRoot
    rw [Nat.zero_add]
  · congr 1
    omega

/-- C9 witness: a concrete 21-leaf list with one thread -- the rounding
loop picks chunks of eight leaves -- merged into the same root as the
sequential build at the sapling tree depth of 32. -/
theorem C9_chunked_tree_root_eq_sequential_witness :
    parRootD (fun d a b => d + 3 * a + 5 * b) 11 32 1
        (List.range 21)
      = seqRootD (fun d a b => d + 3 * a + 5 * b) 11 32 (List.range 21) :=
  C9_chunked_tree_root_eq_sequential (fun d a b => d + 3 * a + 5 * b) 11 32 1
    (List.range 21) (by decide)

set_option maxRecDepth 100000 in
example : blake2bDigest 32 [] [] =
    [14, 87, 81, 192, 38, 229, 67, 178, 232, 171, 46, 176, 96, 153, 218, 161,
     209, 229, 223, 71, 119, 143, 119, 135, 250, 171, 69, 205, 241, 47, 227, 168] := by
  decide

set_option maxRecDepth 100000 in
example : blake2bDigest 32 [] [97, 98, 99] =
    [189, 221, 129, 60, 99, 66, 57, 114, 49, 113, 239, 63, 238, 152, 87, 155,
     148, 150, 78, 59, 177, 203, 62, 66, 114, 98, 200, 192, 104, 213, 35, 25] := by
  decide

/-- C8: the persistent storage hasher is the fixed deterministic Blake2b
digest with a 32-byte (256-bit) output personalized by the domain
separation string "namada storage": on every byte string it agrees with
that one-shot digest and always yields exactly 32 bytes. -/
theorem C8_persistent_storage_hasher (v : List Nat) :
    PersistentStorageHasher.hash v = blake2bDigest 32 namadaStoragePersonal v
    ∧ (PersistentStorageHasher.hash v).length = 32 := by
  constructor
  · rfl
  · show (bytesOfWords _ 32).length = 32
    simp [bytesOfWords]

end Namada
